import Mathlib

/-!
A shallow embedding of the `lockedin` lock-free queue library (headers
`spmc_queue.hpp`, `spsc_queue.hpp`, `mpsc_queue.hpp`) together with proofs of
its sequential functional properties.

Machine integers (`size_t`, `uint32_t`) are modelled as `Nat` with explicit
reduction modulo `2 ^ 64` / `2 ^ 32` wherever the C++ arithmetic can wrap.
Arrays become `List`s of length `capacity`; out-of-range reads are modelled
with `List.getD` (the proved invariants keep every index in range).
Operations that the C++ code runs on a queue through a handle become Lean
functions taking and returning both the shared queue state and the
handle-local state.  Exceptions (`std::logic_error` on construction,
`std::runtime_error` on consumer overlap) become `Except` / an explicit
result constructor.
-/

namespace LockedIn

/-- Unsigned 64-bit wraparound subtraction: the value of `a - b` for
`size_t` operands `a b < 2 ^ 64`. -/
def usub64 (a b : Nat) : Nat := (a + 2 ^ 64 - b) % 2 ^ 64

/-- Reinterpret a 64-bit unsigned value as a signed (two's complement)
integer, as `static_cast<intptr_t>` does on a 64-bit platform. -/
def toSigned64 (x : Nat) : Int := if x < 2 ^ 63 then (x : Int) else (x : Int) - 2 ^ 64

/-- Two's-complement signed difference of two 64-bit values, the result of
`static_cast<intptr_t>(a) - static_cast<intptr_t>(b)` as compiled on a
two's-complement 64-bit platform (the subtraction wraps modulo `2 ^ 64`). -/
def sdiff64 (a b : Nat) : Int := toSigned64 (usub64 a b)

/-- Fuel-driven population count; `popcountAux f n` is the number of set
bits of `n` whenever `n ≤ f`. -/
def popcountAux : Nat → Nat → Nat
  | 0, _ => 0
  | _ + 1, 0 => 0
  | f + 1, n + 1 => (n + 1) % 2 + popcountAux f ((n + 1) / 2)

/-- Number of set bits of `n`, as `std::bitset<64>(n).count()` computes it
for `n < 2 ^ 64`. -/
def popcount (n : Nat) : Nat := popcountAux n n

/-! ### SPMC queue (`spmc_queue.hpp`)

One producer, many consumers, broadcast ring.  A slot stores the value
together with a `uint32_t` version; the producer publishes two queue-level
cursors (`mWriteIndex`, then, after the payload store, `mReadIndex`), and
each handle keeps local cursors.  `SPMCConsumer::pop` checks emptiness
against `mReadIndex` and detects laps through the slot version. -/

/-- Element stored inside the SPMC queue: the data plus a version number
(`SPMCQEntry` in the source; `version` is `uint32_t`). -/
structure SPMCQEntry (α : Type) where
  data : α
  version : Nat
  deriving Repr, DecidableEq

/-- Shared state of `SPMCQ`: capacity, the slot array `items_`, and the two
atomic cursors `mReadIndex` / `mWriteIndex` (both `size_t`, initially 0). -/
structure SPMCQ (α : Type) where
  capacity_ : Nat
  items_ : List (SPMCQEntry α)
  mReadIndex : Nat
  mWriteIndex : Nat
  deriving Repr, DecidableEq

/-- The constructor `SPMCQ::SPMCQ(size_t capacity)`: allocates `capacity`
value-initialized slots, then throws `std::logic_error` unless
`capacity ≥ 2` and `std::bitset<64>(capacity).count() == 1`.  The bitset
truncates its argument to 64 bits, hence the `% 2 ^ 64`. -/
def SPMCQ.new (α : Type) [Inhabited α] (capacity : Nat) : Except String (SPMCQ α) :=
  if capacity < 2 ∨ popcount (capacity % 2 ^ 64) ≠ 1 then
    Except.error "Capacity must be a power of 2, and greater than 1."
  else
    Except.ok
      { capacity_ := capacity
        items_ := List.replicate capacity ⟨default, 0⟩
        mReadIndex := 0
        mWriteIndex := 0 }

/-- Producer handle: reference to the queue is passed explicitly to `push`;
the handle carries `capacity_` and the local cursors `lWriteIdx` (`size_t`)
and `lVersion` (`uint32_t`), both starting at 0. -/
structure SPMCProducer (α : Type) where
  capacity_ : Nat
  lWriteIdx : Nat
  lVersion : Nat
  deriving Repr, DecidableEq

/-- Consumer handle with local cursors `lReadIdx` (`size_t`) and `lVersion`
(`uint32_t`), both initialized to 0 by `SPMCQ::getConsumer`. -/
structure SPMCConsumer (α : Type) where
  capacity_ : Nat
  lReadIdx : Nat
  lVersion : Nat
  deriving Repr, DecidableEq

/-- `SPMCQ::getProducer`. -/
def SPMCQ.getProducer (q : SPMCQ α) : SPMCProducer α :=
  { capacity_ := q.capacity_, lWriteIdx := 0, lVersion := 0 }

/-- `SPMCQ::getConsumer`: the handle's local cursors keep their default
initializers `lReadIdx{0}`, `lVersion{0}`. -/
def SPMCQ.getConsumer (q : SPMCQ α) : SPMCConsumer α :=
  { capacity_ := q.capacity_, lReadIdx := 0, lVersion := 0 }

/-- `SPMCProducer::push`: computes the next masked write index and the next
version (bumped by the `uint32_t` cast of `nxtWriteIdx_nowrap == capacity_`),
stores `nxtWriteIdx` to `mWriteIndex`, copies `{item, lVersion}` into slot
`lWriteIdx`, stores `nxtWriteIdx` to `mReadIndex`, updates the local
cursors, and returns true. -/
def SPMCProducer.push (p : SPMCProducer α) (q : SPMCQ α) (item : α) :
    SPMCQ α × SPMCProducer α × Bool :=
  let nxtWriteIdx_nowrap := p.lWriteIdx + 1
  let nxtVersion := (p.lVersion + (if nxtWriteIdx_nowrap = p.capacity_ then 1 else 0)) % 2 ^ 32
  let nxtWriteIdx := nxtWriteIdx_nowrap &&& (p.capacity_ - 1)
  ({ q with
      mWriteIndex := nxtWriteIdx
      items_ := q.items_.set p.lWriteIdx ⟨item, p.lVersion⟩
      mReadIndex := nxtWriteIdx },
   { p with lWriteIdx := nxtWriteIdx, lVersion := nxtVersion },
   true)

/-- The three successive shared-memory states a `SPMCProducer::push` creates,
one per atomic store, in program order: after the `mWriteIndex` store, after
the payload store into slot `lWriteIdx`, and after the `mReadIndex` store. -/
def SPMCProducer.pushTrace (p : SPMCProducer α) (q : SPMCQ α) (item : α) : List (SPMCQ α) :=
  let nxtWriteIdx := (p.lWriteIdx + 1) &&& (p.capacity_ - 1)
  let q1 := { q with mWriteIndex := nxtWriteIdx }
  let q2 := { q1 with items_ := q1.items_.set p.lWriteIdx ⟨item, p.lVersion⟩ }
  let q3 := { q2 with mReadIndex := nxtWriteIdx }
  [q1, q2, q3]

/-- Result of `SPMCConsumer::pop`: false on empty, a thrown
`std::runtime_error` carrying the read index when overlapped, or the popped
value. -/
inductive SPMCPopResult (α : Type) where
  | empty : SPMCPopResult α
  | overlapped : Nat → SPMCPopResult α
  | ok : α → SPMCPopResult α
  deriving Repr, DecidableEq

/-- `SPMCConsumer::pop`: returns false if `lReadIdx` equals the queue's
`mReadIndex`; otherwise reads the slot at `lReadIdx`, throws when its
version differs from `lVersion`, else copies the data out and advances the
local cursors (version bumped on wrap).  The queue state is returned
unchanged: the consumer performs no store to shared memory. -/
def SPMCConsumer.pop [Inhabited α] (c : SPMCConsumer α) (q : SPMCQ α) :
    SPMCQ α × SPMCConsumer α × SPMCPopResult α :=
  if c.lReadIdx = q.mReadIndex then
    (q, c, SPMCPopResult.empty)
  else
    let val := q.items_.getD c.lReadIdx ⟨default, 0⟩
    if val.version ≠ c.lVersion then
      (q, c, SPMCPopResult.overlapped c.lReadIdx)
    else
      let nxtReadIdx_nowrap := c.lReadIdx + 1
      let nxtVersion := (c.lVersion + (if nxtReadIdx_nowrap = c.capacity_ then 1 else 0)) % 2 ^ 32
      (q,
       { c with lReadIdx := nxtReadIdx_nowrap &&& (c.capacity_ - 1), lVersion := nxtVersion },
       SPMCPopResult.ok val.data)

/-- Modelled from the spec: `SPMCConsumer::respawn` is advertised by the
repository README and called by the benchmark harness, but its body is not
among the source files.  The spec says: "resync this consumer's local read
index and version to the producer's current cursor, abandoning all unread
values."  The producer's current cursor is its local write index together
with its local version. -/
def SPMCConsumer.respawn (c : SPMCConsumer α) (p : SPMCProducer α) : SPMCConsumer α :=
  { c with lReadIdx := p.lWriteIdx, lVersion := p.lVersion }

/-- `SPMCQ::full`: conservative queue-level check on the two cursors. -/
def SPMCQ.full (q : SPMCQ α) : Bool :=
  ((q.mWriteIndex + 1) &&& (q.capacity_ - 1)) == q.mReadIndex

/-- `SPMCQ::empty`: queue-level cursor comparison. -/
def SPMCQ.empty (q : SPMCQ α) : Bool :=
  q.mReadIndex == q.mWriteIndex

/-- `SPMCQ::size`: `(writeIdx - readIdx) & (capacity_ - 1)` in `size_t`
arithmetic. -/
def SPMCQ.size (q : SPMCQ α) : Nat :=
  usub64 q.mWriteIndex q.mReadIndex &&& (q.capacity_ - 1)

/-- Invariant tying an SPMC queue to its (unique) producer handle in the
quiescent states between pushes: the capacity is a constructible power of
two shared by the handle, the slot array is fully allocated, the local
cursors are in range, and both published cursors equal the producer's local
write index. -/
def SPMCInv (q : SPMCQ α) (p : SPMCProducer α) : Prop :=
  (∃ k, 1 ≤ k ∧ k ≤ 63 ∧ q.capacity_ = 2 ^ k) ∧
    p.capacity_ = q.capacity_ ∧
    q.items_.length = q.capacity_ ∧
    p.lWriteIdx < q.capacity_ ∧
    p.lVersion < 2 ^ 32 ∧
    q.mReadIndex = p.lWriteIdx ∧
    q.mWriteIndex = p.lWriteIdx

/-! ### Basic arithmetic lemmas -/

theorem and_mask (x k : Nat) : x &&& (2 ^ k - 1) = x % 2 ^ k :=
  Nat.and_pow_two_sub_one_eq_mod x k

theorem succ_mod_ne_self {x c : Nat} (hc : 2 ≤ c) (hx : x < c) : (x + 1) % c ≠ x := by
  rcases Nat.lt_or_ge (x + 1) c with h | h
  · rw [Nat.mod_eq_of_lt h]; omega
  · have hxc : x + 1 = c := by omega
    rw [hxc, Nat.mod_self]; omega

theorem usub64_self (x : Nat) : usub64 x x = 0 := by
  unfold usub64; omega

theorem two_le_two_pow {k : Nat} (hk : 1 ≤ k) : 2 ≤ 2 ^ k :=
  calc 2 = 2 ^ 1 := rfl
  _ ≤ 2 ^ k := Nat.pow_le_pow_right (by omega) hk

/-! ### SPMC: pop characterization (C1) -/

/-- C1: `SPMCConsumer::pop` returns false exactly when the local read index
equals the published cursor `mReadIndex`; raises the overlap failure (with
the read index) exactly when the slot at `lReadIdx` stores a version
different from `lVersion`; and otherwise returns the slot's data, advances
`lReadIdx` modulo the capacity bumping `lVersion` on wrap — all while
leaving the queue (hence the slot's value and version) unchanged. -/
theorem spmc_pop_characterization {α : Type} [Inhabited α]
    (c : SPMCConsumer α) (q : SPMCQ α) (k : Nat)
    (hcap : c.capacity_ = 2 ^ k) (hr : c.lReadIdx < c.capacity_)
    (hv : c.lVersion < 2 ^ 32) :
    (c.pop q).1 = q ∧
    ((c.pop q).2.2 = SPMCPopResult.empty ↔ c.lReadIdx = q.mReadIndex) ∧
    ((c.pop q).2.2 = SPMCPopResult.overlapped c.lReadIdx ↔
      (c.lReadIdx ≠ q.mReadIndex ∧
        (q.items_.getD c.lReadIdx ⟨default, 0⟩).version ≠ c.lVersion)) ∧
    ((c.pop q).2.2 = SPMCPopResult.empty → (c.pop q).2.1 = c) ∧
    ((c.pop q).2.2 = SPMCPopResult.overlapped c.lReadIdx → (c.pop q).2.1 = c) ∧
    (c.lReadIdx ≠ q.mReadIndex →
      (q.items_.getD c.lReadIdx ⟨default, 0⟩).version = c.lVersion →
      (c.pop q).2.2 = SPMCPopResult.ok (q.items_.getD c.lReadIdx ⟨default, 0⟩).data ∧
      (c.pop q).2.1.lReadIdx = (if c.lReadIdx + 1 = c.capacity_ then 0 else c.lReadIdx + 1) ∧
      (c.pop q).2.1.lVersion =
        (if c.lReadIdx + 1 = c.capacity_ then (c.lVersion + 1) % 2 ^ 32 else c.lVersion)) := by
  by_cases h1 : c.lReadIdx = q.mReadIndex
  · simp [SPMCConsumer.pop, h1]
  · by_cases h2 : (q.items_.getD c.lReadIdx ⟨default, 0⟩).version = c.lVersion
    · have hpop : c.pop q =
          (q, ⟨c.capacity_, (c.lReadIdx + 1) &&& (c.capacity_ - 1),
              (c.lVersion + if c.lReadIdx + 1 = c.capacity_ then 1 else 0) % 2 ^ 32⟩,
            SPMCPopResult.ok (q.items_.getD c.lReadIdx ⟨default, 0⟩).data) := by
        simp only [SPMCConsumer.pop, if_neg h1, ne_eq, h2, not_true_eq_false, if_false]
      have hidx : (c.lReadIdx + 1) &&& (c.capacity_ - 1) =
          (if c.lReadIdx + 1 = c.capacity_ then 0 else c.lReadIdx + 1) := by
        rw [hcap, and_mask, ← hcap]
        by_cases h3 : c.lReadIdx + 1 = c.capacity_
        · rw [if_pos h3, h3, hcap, Nat.mod_self]
        · rw [if_neg h3, hcap, Nat.mod_eq_of_lt (by omega)]
      have hver : (c.lVersion + if c.lReadIdx + 1 = c.capacity_ then 1 else 0) % 2 ^ 32 =
          (if c.lReadIdx + 1 = c.capacity_ then (c.lVersion + 1) % 2 ^ 32 else c.lVersion) := by
        by_cases h3 : c.lReadIdx + 1 = c.capacity_
        · rw [if_pos h3, if_pos h3]
        · rw [if_neg h3, if_neg h3, Nat.add_zero, Nat.mod_eq_of_lt hv]
      rw [hpop]
      exact ⟨rfl, ⟨fun h => SPMCPopResult.noConfusion h, fun h => (h1 h).elim⟩,
        ⟨fun h => SPMCPopResult.noConfusion h, fun h => (h.2 h2).elim⟩,
        fun h => SPMCPopResult.noConfusion h, fun h => SPMCPopResult.noConfusion h,
        fun _ _ => ⟨rfl, hidx, hver⟩⟩
    · have hpop : c.pop q = (q, c, SPMCPopResult.overlapped c.lReadIdx) := by
        simp only [SPMCConsumer.pop, if_neg h1, ne_eq, h2, not_false_eq_true, if_true]
      rw [hpop]
      exact ⟨rfl, ⟨fun h => SPMCPopResult.noConfusion h, fun h => (h1 h).elim⟩,
        ⟨fun _ => ⟨h1, h2⟩, fun _ => rfl⟩,
        fun h => SPMCPopResult.noConfusion h, fun _ => rfl,
        fun _ h => absurd h h2⟩

/-- Witness for `spmc_pop_characterization` at a concrete state: capacity 2,
one value in slot 0, consumer at index 0 with matching version. -/
theorem spmc_pop_characterization_witness :
    ((⟨2, 0, 0⟩ : SPMCConsumer Nat).capacity_ = 2 ^ 1 ∧
      (⟨2, 0, 0⟩ : SPMCConsumer Nat).lReadIdx < 2 ∧
      (⟨2, 0, 0⟩ : SPMCConsumer Nat).lVersion < 2 ^ 32) ∧
    ((SPMCConsumer.pop (⟨2, 0, 0⟩ : SPMCConsumer Nat) ⟨2, [⟨7, 0⟩, ⟨0, 0⟩], 1, 1⟩).2.2 =
      SPMCPopResult.ok 7) := by
  refine ⟨⟨by decide, by decide, by decide⟩, ?_⟩
  have h := spmc_pop_characterization (⟨2, 0, 0⟩ : SPMCConsumer Nat)
    (⟨2, [⟨7, 0⟩, ⟨0, 0⟩], 1, 1⟩ : SPMCQ Nat) 1 (by decide) (by decide) (by decide)
  exact (h.2.2.2.2.2 (by decide) (by decide)).1

/-! ### SPMC: push characterization (C3) and queue-level observers after a
push (C10) -/

/-- C3: `SPMCProducer::push` always returns true, writes the packed
`{value, lVersion}` into the slot at the local write index, publishes that
same next index to both queue cursors, advances the local write index
modulo the capacity, and increments the local version exactly when the
advance wraps past the end of the buffer.  Every right-hand side below
depends only on the producer-local state, the pushed value, and the slot
array — not on any consumer state. -/
theorem spmc_push_characterization {α : Type} (p : SPMCProducer α) (q : SPMCQ α)
    (v : α) (k : Nat) (hcap : p.capacity_ = 2 ^ k) (hw : p.lWriteIdx < p.capacity_)
    (hv : p.lVersion < 2 ^ 32) :
    (p.push q v).2.2 = true ∧
    (p.push q v).1.items_ = q.items_.set p.lWriteIdx ⟨v, p.lVersion⟩ ∧
    (p.push q v).1.mWriteIndex = (if p.lWriteIdx + 1 = p.capacity_ then 0 else p.lWriteIdx + 1) ∧
    (p.push q v).1.mReadIndex = (if p.lWriteIdx + 1 = p.capacity_ then 0 else p.lWriteIdx + 1) ∧
    (p.push q v).2.1.lWriteIdx = (if p.lWriteIdx + 1 = p.capacity_ then 0 else p.lWriteIdx + 1) ∧
    (p.push q v).2.1.lVersion =
      (if p.lWriteIdx + 1 = p.capacity_ then (p.lVersion + 1) % 2 ^ 32 else p.lVersion) ∧
    (p.push q v).1.capacity_ = q.capacity_ := by
  have hidx : (p.lWriteIdx + 1) &&& (p.capacity_ - 1) =
      (if p.lWriteIdx + 1 = p.capacity_ then 0 else p.lWriteIdx + 1) := by
    rw [hcap, and_mask, ← hcap]
    by_cases h3 : p.lWriteIdx + 1 = p.capacity_
    · rw [if_pos h3, h3, hcap, Nat.mod_self]
    · rw [if_neg h3, hcap, Nat.mod_eq_of_lt (by omega)]
  have hver : (p.lVersion + if p.lWriteIdx + 1 = p.capacity_ then 1 else 0) % 2 ^ 32 =
      (if p.lWriteIdx + 1 = p.capacity_ then (p.lVersion + 1) % 2 ^ 32 else p.lVersion) := by
    by_cases h3 : p.lWriteIdx + 1 = p.capacity_
    · rw [if_pos h3, if_pos h3]
    · rw [if_neg h3, if_neg h3, Nat.add_zero, Nat.mod_eq_of_lt hv]
  exact ⟨rfl, rfl, hidx, hidx, hidx, hver, rfl⟩

/-- Witness for `spmc_push_characterization`: capacity 2, write index 1
(wrapping push). -/
theorem spmc_push_characterization_witness :
    ((⟨2, 1, 0⟩ : SPMCProducer Nat).capacity_ = 2 ^ 1 ∧
      (⟨2, 1, 0⟩ : SPMCProducer Nat).lWriteIdx < 2 ∧
      (⟨2, 1, 0⟩ : SPMCProducer Nat).lVersion < 2 ^ 32) ∧
    ((SPMCProducer.push (⟨2, 1, 0⟩ : SPMCProducer Nat) ⟨2, [⟨7, 0⟩, ⟨0, 0⟩], 1, 1⟩ 9).2.2 = true ∧
      (SPMCProducer.push (⟨2, 1, 0⟩ : SPMCProducer Nat) ⟨2, [⟨7, 0⟩, ⟨0, 0⟩], 1, 1⟩ 9).2.1.lVersion
        = 1) := by
  refine ⟨⟨by decide, by decide, by decide⟩, ?_, ?_⟩
  · exact (spmc_push_characterization (⟨2, 1, 0⟩ : SPMCProducer Nat)
      ⟨2, [⟨7, 0⟩, ⟨0, 0⟩], 1, 1⟩ 9 1 (by decide) (by decide) (by decide)).1
  · have h := (spmc_push_characterization (⟨2, 1, 0⟩ : SPMCProducer Nat)
      ⟨2, [⟨7, 0⟩, ⟨0, 0⟩], 1, 1⟩ 9 1 (by decide) (by decide) (by decide)).2.2.2.2.2.1
    simpa using h

/-- C10: a completed `SPMCProducer::push` leaves both published cursors
equal, so the queue-level observers report `empty() = true`, `size() = 0`,
and `full() = false`, regardless of how many pushed values no consumer has
popped yet. -/
theorem spmc_queue_observers_after_push {α : Type} (p : SPMCProducer α) (q : SPMCQ α)
    (v : α) (k : Nat) (hk : 1 ≤ k) (hcap : q.capacity_ = 2 ^ k)
    (hpc : p.capacity_ = q.capacity_) :
    (p.push q v).1.mReadIndex = (p.push q v).1.mWriteIndex ∧
    (p.push q v).1.empty = true ∧
    (p.push q v).1.size = 0 ∧
    (p.push q v).1.full = false := by
  have hc2 : 2 ≤ q.capacity_ := by
    rw [hcap]; calc 2 = 2 ^ 1 := rfl
    _ ≤ 2 ^ k := Nat.pow_le_pow_right (by omega) hk
  have hcap' : (p.push q v).1.capacity_ = q.capacity_ := rfl
  have hmw : (p.push q v).1.mWriteIndex = (p.lWriteIdx + 1) &&& (p.capacity_ - 1) := rfl
  have hmr : (p.push q v).1.mReadIndex = (p.lWriteIdx + 1) &&& (p.capacity_ - 1) := rfl
  have hlt : (p.lWriteIdx + 1) &&& (p.capacity_ - 1) < q.capacity_ := by
    rw [hpc, hcap, and_mask]
    exact Nat.mod_lt _ (by omega)
  refine ⟨hmr.trans hmw.symm, ?_, ?_, ?_⟩
  · show ((p.push q v).1.mReadIndex == (p.push q v).1.mWriteIndex) = true
    rw [hmr, hmw]
    exact beq_self_eq_true _
  · show usub64 (p.push q v).1.mWriteIndex (p.push q v).1.mReadIndex &&&
      ((p.push q v).1.capacity_ - 1) = 0
    rw [hmr, hmw, usub64_self, Nat.zero_and]
  · show (((p.push q v).1.mWriteIndex + 1) &&& ((p.push q v).1.capacity_ - 1)
      == (p.push q v).1.mReadIndex) = false
    rw [hmr, hmw, hcap', hcap, and_mask, beq_eq_false_iff_ne]
    exact succ_mod_ne_self (hcap ▸ hc2) (hcap ▸ hlt)

/-- Witness for `spmc_queue_observers_after_push`: capacity 2, one push on
a fresh queue. -/
theorem spmc_queue_observers_after_push_witness :
    ((1 : Nat) ≤ 1 ∧ (⟨2, [⟨0, 0⟩, ⟨0, 0⟩], 0, 0⟩ : SPMCQ Nat).capacity_ = 2 ^ 1 ∧
      (⟨2, 0, 0⟩ : SPMCProducer Nat).capacity_ =
        (⟨2, [⟨0, 0⟩, ⟨0, 0⟩], 0, 0⟩ : SPMCQ Nat).capacity_) ∧
    ((SPMCProducer.push (⟨2, 0, 0⟩ : SPMCProducer Nat)
        (⟨2, [⟨0, 0⟩, ⟨0, 0⟩], 0, 0⟩ : SPMCQ Nat) 5).1.empty = true ∧
      (SPMCProducer.push (⟨2, 0, 0⟩ : SPMCProducer Nat)
        (⟨2, [⟨0, 0⟩, ⟨0, 0⟩], 0, 0⟩ : SPMCQ Nat) 5).1.size = 0 ∧
      (SPMCProducer.push (⟨2, 0, 0⟩ : SPMCProducer Nat)
        (⟨2, [⟨0, 0⟩, ⟨0, 0⟩], 0, 0⟩ : SPMCQ Nat) 5).1.full = false) := by
  have h := spmc_queue_observers_after_push (⟨2, 0, 0⟩ : SPMCProducer Nat)
    (⟨2, [⟨0, 0⟩, ⟨0, 0⟩], 0, 0⟩ : SPMCQ Nat) 5 1 (by decide) (by decide) (by decide)
  exact ⟨⟨by decide, by decide, by decide⟩, h.2.1, h.2.2.1, h.2.2.2⟩

/-! ### List helper lemmas -/

theorem getD_set_self {α : Type} (l : List α) (i : Nat) (v d : α) (h : i < l.length) :
    (l.set i v).getD i d = v := by
  simp [List.getD, List.getElem?_set_self, h]

theorem getD_set_ne {α : Type} (l : List α) {i j : Nat} (v d : α) (h : i ≠ j) :
    (l.set i v).getD j d = l.getD j d := by
  simp [List.getD, List.getElem?_set_ne h]

/-! ### SPMC: respawn (C2) — modelled from the spec -/

/-- C2: `respawn()` resynchronizes the consumer's local read index and
expected version to the producer's current cursor.  In any quiescent
reachable state (`SPMCInv`), the respawned consumer's immediate pop finds
the queue empty rather than overlapped, and after the producer pushes one
more value `v` the respawned consumer's pop yields exactly `v`: it resumes
from the producer's current position, abandoning everything unread. -/
theorem spmc_respawn_recovers {α : Type} [Inhabited α]
    (q : SPMCQ α) (p : SPMCProducer α) (c : SPMCConsumer α) (v : α)
    (hinv : SPMCInv q p) :
    (c.respawn p).lReadIdx = p.lWriteIdx ∧
    (c.respawn p).lVersion = p.lVersion ∧
    ((c.respawn p).pop q).2.2 = SPMCPopResult.empty ∧
    ((c.respawn p).pop (p.push q v).1).2.2 = SPMCPopResult.ok v := by
  obtain ⟨⟨k, hk, _, hcap⟩, hpc, hlen, hw, _, hsync, _⟩ := hinv
  refine ⟨rfl, rfl, ?_, ?_⟩
  · simp [SPMCConsumer.pop, SPMCConsumer.respawn, hsync]
  · have hc2 : 2 ≤ q.capacity_ := by
      rw [hcap]; calc 2 = 2 ^ 1 := rfl
      _ ≤ 2 ^ k := Nat.pow_le_pow_right (by omega) hk
    have hne : p.lWriteIdx ≠ (p.push q v).1.mReadIndex := by
      show p.lWriteIdx ≠ (p.lWriteIdx + 1) &&& (p.capacity_ - 1)
      rw [hpc, hcap, and_mask]
      exact fun h => succ_mod_ne_self (hcap ▸ hc2) (by omega : p.lWriteIdx < 2 ^ k) h.symm
    have hslot : (p.push q v).1.items_.getD p.lWriteIdx ⟨default, 0⟩ =
        ⟨v, p.lVersion⟩ := by
      show (q.items_.set p.lWriteIdx ⟨v, p.lVersion⟩).getD p.lWriteIdx ⟨default, 0⟩ = _
      exact getD_set_self _ _ _ _ (by omega)
    show (SPMCConsumer.pop ⟨c.capacity_, p.lWriteIdx, p.lVersion⟩ (p.push q v).1).2.2 = _
    simp only [SPMCConsumer.pop, hne, if_false, hslot, ne_eq, not_true_eq_false]

/-- Witness for `spmc_respawn_recovers`: fresh capacity-2 queue, consumer
left at a stale position, value 9. -/
theorem spmc_respawn_recovers_witness :
    SPMCInv (⟨2, [⟨0, 0⟩, ⟨0, 0⟩], 0, 0⟩ : SPMCQ Nat) (⟨2, 0, 0⟩ : SPMCProducer Nat) ∧
    ((SPMCConsumer.respawn (⟨2, 1, 7⟩ : SPMCConsumer Nat) (⟨2, 0, 0⟩ : SPMCProducer Nat)).pop
        (⟨2, [⟨0, 0⟩, ⟨0, 0⟩], 0, 0⟩ : SPMCQ Nat)).2.2 = SPMCPopResult.empty ∧
    ((SPMCConsumer.respawn (⟨2, 1, 7⟩ : SPMCConsumer Nat) (⟨2, 0, 0⟩ : SPMCProducer Nat)).pop
        (SPMCProducer.push (⟨2, 0, 0⟩ : SPMCProducer Nat)
          (⟨2, [⟨0, 0⟩, ⟨0, 0⟩], 0, 0⟩ : SPMCQ Nat) 9).1).2.2 = SPMCPopResult.ok 9 := by
  have hinv : SPMCInv (⟨2, [⟨0, 0⟩, ⟨0, 0⟩], 0, 0⟩ : SPMCQ Nat) (⟨2, 0, 0⟩ : SPMCProducer Nat) :=
    ⟨⟨1, by omega, by omega, rfl⟩, rfl, rfl, by decide, by decide, rfl, rfl⟩
  have h := spmc_respawn_recovers (⟨2, [⟨0, 0⟩, ⟨0, 0⟩], 0, 0⟩ : SPMCQ Nat)
    (⟨2, 0, 0⟩ : SPMCProducer Nat) (⟨2, 1, 7⟩ : SPMCConsumer Nat) 9 hinv
  exact ⟨hinv, h.2.2.1, h.2.2.2⟩

/-! ### SPMC: publication order inside a push (C5) -/

/-- C5: among the three atomic stores a `SPMCProducer::push` performs, the
cursor consumers use for their emptiness check (`mReadIndex`) is published
exactly once, by the last store, strictly after the payload store; in every
earlier intermediate state the consumer-visible cursor still holds its
pre-push value, so a consumer positioned at the slot being written still
sees the queue as empty, and the final state is the completed push. -/
theorem spmc_push_trace_publish_order {α : Type} [Inhabited α]
    (p : SPMCProducer α) (q : SPMCQ α) (item : α) (c : SPMCConsumer α) (k : Nat)
    (hk : 1 ≤ k) (hcap : p.capacity_ = 2 ^ k) (hw : p.lWriteIdx < p.capacity_)
    (hsync : q.mReadIndex = p.lWriteIdx) (hlen : p.lWriteIdx < q.items_.length)
    (hc : c.lReadIdx = p.lWriteIdx) :
    (p.pushTrace q item).map SPMCQ.mReadIndex =
      [q.mReadIndex, q.mReadIndex, (p.lWriteIdx + 1) &&& (p.capacity_ - 1)] ∧
    ((p.lWriteIdx + 1) &&& (p.capacity_ - 1)) ≠ q.mReadIndex ∧
    ((p.pushTrace q item).getD 1 q).items_.getD p.lWriteIdx ⟨default, 0⟩ =
      ⟨item, p.lVersion⟩ ∧
    (p.pushTrace q item).getD 2 q = (p.push q item).1 ∧
    (c.pop ((p.pushTrace q item).getD 0 q)).2.2 = SPMCPopResult.empty ∧
    (c.pop ((p.pushTrace q item).getD 1 q)).2.2 = SPMCPopResult.empty := by
  have e0 : (p.pushTrace q item).getD 0 q =
      { q with mWriteIndex := (p.lWriteIdx + 1) &&& (p.capacity_ - 1) } := rfl
  have e1 : (p.pushTrace q item).getD 1 q =
      { q with mWriteIndex := (p.lWriteIdx + 1) &&& (p.capacity_ - 1),
               items_ := q.items_.set p.lWriteIdx ⟨item, p.lVersion⟩ } := rfl
  refine ⟨rfl, ?_, ?_, rfl, ?_, ?_⟩
  · rw [hcap, and_mask, hsync]
    exact succ_mod_ne_self (two_le_two_pow hk) (hcap ▸ hw)
  · show (q.items_.set p.lWriteIdx ⟨item, p.lVersion⟩).getD p.lWriteIdx ⟨default, 0⟩ = _
    exact getD_set_self _ _ _ _ hlen
  · rw [e0]; simp [SPMCConsumer.pop, hc, hsync]
  · rw [e1]; simp [SPMCConsumer.pop, hc, hsync]

/-- Witness for `spmc_push_trace_publish_order`: capacity-2 fresh queue,
consumer at the producer's position. -/
theorem spmc_push_trace_publish_order_witness :
    ((⟨2, [⟨0, 0⟩, ⟨0, 0⟩], 0, 0⟩ : SPMCQ Nat).mReadIndex =
        (⟨2, 0, 0⟩ : SPMCProducer Nat).lWriteIdx ∧
      (⟨2, 0, 0⟩ : SPMCConsumer Nat).lReadIdx = (⟨2, 0, 0⟩ : SPMCProducer Nat).lWriteIdx) ∧
    (SPMCProducer.pushTrace (⟨2, 0, 0⟩ : SPMCProducer Nat)
        (⟨2, [⟨0, 0⟩, ⟨0, 0⟩], 0, 0⟩ : SPMCQ Nat) 3).map SPMCQ.mReadIndex = [0, 0, 1] ∧
    (SPMCConsumer.pop (⟨2, 0, 0⟩ : SPMCConsumer Nat)
        ((SPMCProducer.pushTrace (⟨2, 0, 0⟩ : SPMCProducer Nat)
          (⟨2, [⟨0, 0⟩, ⟨0, 0⟩], 0, 0⟩ : SPMCQ Nat) 3).getD 1
            (⟨2, [⟨0, 0⟩, ⟨0, 0⟩], 0, 0⟩ : SPMCQ Nat))).2.2 = SPMCPopResult.empty := by
  have h := spmc_push_trace_publish_order (⟨2, 0, 0⟩ : SPMCProducer Nat)
    (⟨2, [⟨0, 0⟩, ⟨0, 0⟩], 0, 0⟩ : SPMCQ Nat) 3 (⟨2, 0, 0⟩ : SPMCConsumer Nat) 1
    (by omega) rfl (by decide) rfl (by decide) rfl
  exact ⟨⟨rfl, rfl⟩, h.1, h.2.2.2.2.2⟩

/-! ### SPMC: consumer creation point (C4) -/

/-- C4 evaluation: `getConsumer` leaves the new consumer's cursors at their
default initializers `lReadIdx{0}`, `lVersion{0}` instead of the producer's
current cursor.  On a fresh capacity-2 queue, after the producer pushes 42
the producer's cursor stands at 1, yet a consumer created at that point
starts at 0 and its first pop returns 42 — a value pushed strictly before
the consumer's creation, which the claim says it must not observe. -/
theorem spmc_getConsumer_observes_pre_creation_push :
    SPMCQ.new Nat 2 = Except.ok (⟨2, [⟨0, 0⟩, ⟨0, 0⟩], 0, 0⟩ : SPMCQ Nat) ∧
    (SPMCProducer.push (SPMCQ.getProducer (⟨2, [⟨0, 0⟩, ⟨0, 0⟩], 0, 0⟩ : SPMCQ Nat))
      (⟨2, [⟨0, 0⟩, ⟨0, 0⟩], 0, 0⟩ : SPMCQ Nat) 42).2.1.lWriteIdx = 1 ∧
    (SPMCQ.getConsumer (SPMCProducer.push
      (SPMCQ.getProducer (⟨2, [⟨0, 0⟩, ⟨0, 0⟩], 0, 0⟩ : SPMCQ Nat))
      (⟨2, [⟨0, 0⟩, ⟨0, 0⟩], 0, 0⟩ : SPMCQ Nat) 42).1).lReadIdx = 0 ∧
    (SPMCConsumer.pop
      (SPMCQ.getConsumer (SPMCProducer.push
        (SPMCQ.getProducer (⟨2, [⟨0, 0⟩, ⟨0, 0⟩], 0, 0⟩ : SPMCQ Nat))
        (⟨2, [⟨0, 0⟩, ⟨0, 0⟩], 0, 0⟩ : SPMCQ Nat) 42).1)
      (SPMCProducer.push (SPMCQ.getProducer (⟨2, [⟨0, 0⟩, ⟨0, 0⟩], 0, 0⟩ : SPMCQ Nat))
        (⟨2, [⟨0, 0⟩, ⟨0, 0⟩], 0, 0⟩ : SPMCQ Nat) 42).1).2.2 = SPMCPopResult.ok 42 := by
  refine ⟨?_, rfl, rfl, by decide⟩
  show (if (2 : Nat) < 2 ∨ popcount (2 % 2 ^ 64) ≠ 1 then _ else _) = _
  norm_num [popcount, popcountAux]
  rfl

/-! ### Popcount lemmas -/

theorem popcountAux_stable (m : Nat) : ∀ f, m ≤ f → popcountAux f m = popcountAux m m := by
  induction m using Nat.strong_induction_on with
  | _ m ih =>
    intro f hf
    match m, f with
    | 0, 0 => rfl
    | 0, f + 1 => rfl
    | m + 1, f + 1 =>
      show (m + 1) % 2 + popcountAux f ((m + 1) / 2) =
        (m + 1) % 2 + popcountAux m ((m + 1) / 2)
      have h2 : (m + 1) / 2 < m + 1 := Nat.div_lt_self (by omega) (by omega)
      have ha := ih ((m + 1) / 2) h2 f (by omega)
      have hb := ih ((m + 1) / 2) h2 m (by omega)
      rw [ha, ← hb]

theorem popcount_succ (n : Nat) :
    popcount (n + 1) = (n + 1) % 2 + popcount ((n + 1) / 2) := by
  show (n + 1) % 2 + popcountAux n ((n + 1) / 2) = _
  rw [popcountAux_stable ((n + 1) / 2) n (by omega)]
  rfl

theorem popcount_pos {n : Nat} (h : 1 ≤ n) : 1 ≤ popcount n := by
  induction n using Nat.strong_induction_on with
  | _ n ih =>
    match n with
    | n + 1 =>
      rw [popcount_succ]
      by_cases he : (n + 1) % 2 = 0
      · have hd : 1 ≤ (n + 1) / 2 := by omega
        have := ih ((n + 1) / 2) (by omega) hd
        omega
      · omega

theorem popcount_eq_one_iff (n : Nat) : popcount n = 1 ↔ ∃ k, n = 2 ^ k := by
  induction n using Nat.strong_induction_on with
  | _ n ih =>
    match n with
    | 0 =>
      constructor
      · intro h; exact absurd h (by decide)
      · rintro ⟨k, hk⟩
        have : 0 < 2 ^ k := Nat.pos_pow_of_pos k (by omega)
        omega
    | 1 => exact ⟨fun _ => ⟨0, rfl⟩, fun _ => rfl⟩
    | n + 2 =>
      rw [popcount_succ]
      by_cases he : (n + 2) % 2 = 0
      · rw [he, Nat.zero_add, ih ((n + 2) / 2) (by omega)]
        constructor
        · rintro ⟨k, hk⟩
          refine ⟨k + 1, ?_⟩
          have hp : 2 ^ (k + 1) = 2 ^ k * 2 := by rw [pow_succ]
          omega
        · rintro ⟨k, hk⟩
          match k with
          | 0 => omega
          | k + 1 =>
            refine ⟨k, ?_⟩
            have hp : 2 ^ (k + 1) = 2 ^ k * 2 := by rw [pow_succ]
            omega
      · have h1 : (n + 2) % 2 = 1 := by omega
        rw [h1]
        have hp : 1 ≤ popcount ((n + 1 + 1) / 2) := popcount_pos (by omega)
        constructor
        · intro h; exfalso; omega
        · rintro ⟨k, hk⟩
          match k with
          | 0 => omega
          | k + 1 =>
            have : 2 ^ (k + 1) = 2 ^ k * 2 := by rw [pow_succ]
            omega

theorem pow2_range {cap : Nat} (h2 : 2 ≤ cap) (hlt : cap < 2 ^ 64)
    (hp : ∃ k, cap = 2 ^ k) : ∃ k, 1 ≤ k ∧ k ≤ 63 ∧ cap = 2 ^ k := by
  obtain ⟨k, hk⟩ := hp
  refine ⟨k, ?_, ?_, hk⟩
  · rcases Nat.eq_zero_or_pos k with h0 | h1
    · subst h0; simp at hk; omega
    · exact h1
  · have : k < 64 := by
      by_contra h
      have h64 : (64 : Nat) ≤ k := by omega
      have : (2 : Nat) ^ 64 ≤ 2 ^ k := Nat.pow_le_pow_right (by omega) h64
      omega
    omega

/-! ### SPSC queue (`spsc_queue.hpp`)

One producer, one consumer, monolithic interface: the queue itself exposes
`push`, `pop` and the observers. -/

/-- Shared state of `SPSCQ`: capacity, slot array, consumer cursor
`readIdx_` and producer cursor `writeIdx_` (both `size_t`, initially 0,
always stored masked). -/
structure SPSCQ (α : Type) where
  capacity_ : Nat
  items_ : List α
  readIdx_ : Nat
  writeIdx_ : Nat
  deriving Repr, DecidableEq

/-- The constructor `SPSCQ::SPSCQ(size_t capacity)`: allocates `capacity`
slots, then throws `std::logic_error` unless `capacity ≥ 2` and
`std::bitset<64>(capacity).count() == 1`. -/
def SPSCQ.new (α : Type) [Inhabited α] (capacity : Nat) : Except String (SPSCQ α) :=
  if capacity < 2 ∨ popcount (capacity % 2 ^ 64) ≠ 1 then
    Except.error "Capacity must be a power of 2, and greater than 1."
  else
    Except.ok
      { capacity_ := capacity
        items_ := List.replicate capacity default
        readIdx_ := 0
        writeIdx_ := 0 }

/-- `SPSCQ::push`: loads both cursors, computes the masked next write
index, returns false when it equals the read index (full, one slot
reserved), else stores the item at `writeIdx_` and publishes the next
write index. -/
def SPSCQ.push (q : SPSCQ α) (item : α) : SPSCQ α × Bool :=
  let writeIdx := q.writeIdx_
  let readIdx := q.readIdx_
  let nextWriteIdx := (writeIdx + 1) &&& (q.capacity_ - 1)
  if nextWriteIdx = readIdx then
    (q, false)
  else
    ({ q with items_ := q.items_.set writeIdx item, writeIdx_ := nextWriteIdx }, true)

/-- `SPSCQ::pop`: returns false when the cursors are equal (empty), else
moves the item at `readIdx_` out and publishes the masked next read
index. -/
def SPSCQ.pop [Inhabited α] (q : SPSCQ α) : SPSCQ α × Option α :=
  let readIdx := q.readIdx_
  let writeIdx := q.writeIdx_
  if readIdx = writeIdx then
    (q, none)
  else
    ({ q with readIdx_ := (readIdx + 1) &&& (q.capacity_ - 1) },
     some (q.items_.getD readIdx default))

/-- `SPSCQ::full`: conservative cursor comparison. -/
def SPSCQ.full (q : SPSCQ α) : Bool :=
  ((q.writeIdx_ + 1) &&& (q.capacity_ - 1)) == q.readIdx_

/-- `SPSCQ::empty`. -/
def SPSCQ.empty (q : SPSCQ α) : Bool :=
  q.readIdx_ == q.writeIdx_

/-- `SPSCQ::size`: `(writeIdx - readIdx) & (capacity_ - 1)` in `size_t`
arithmetic. -/
def SPSCQ.size (q : SPSCQ α) : Nat :=
  usub64 q.writeIdx_ q.readIdx_ &&& (q.capacity_ - 1)

/-! ### Sequential runs over an SPSC queue -/

/-- A queue operation in a sequential trace. -/
inductive QOp (α : Type) where
  | push : α → QOp α
  | pop : QOp α
  deriving Repr, DecidableEq

/-- Run a list of operations on an SPSC queue; returns the final state, the
list of successfully pushed values (in push order) and the list of popped
values (in pop order). -/
def SPSCQ.runOps [Inhabited α] (q : SPSCQ α) : List (QOp α) → SPSCQ α × List α × List α
  | [] => (q, [], [])
  | QOp.push v :: ops =>
    let r := q.push v
    let rest := r.1.runOps ops
    (rest.1, (if r.2 then [v] else []) ++ rest.2.1, rest.2.2)
  | QOp.pop :: ops =>
    let r := q.pop
    let rest := r.1.runOps ops
    (rest.1, rest.2.1, r.2.toList ++ rest.2.2)

/-- Structural part of the SPSC invariant: the capacity is a constructible
power of two and the slot array is fully allocated. -/
def SPSCBasic (q : SPSCQ α) : Prop :=
  (∃ k, 1 ≤ k ∧ k ≤ 63 ∧ q.capacity_ = 2 ^ k) ∧ q.items_.length = q.capacity_

/-- Ghost abstraction of the two masked cursors: `R` pops and `W`
successful pushes have happened, the stored cursors are their residues, and
the occupancy `W - R` fits in the `capacity - 1` usable slots. -/
def SPSCAbs (q : SPSCQ α) (R W : Nat) : Prop :=
  R ≤ W ∧ W - R ≤ q.capacity_ - 1 ∧
    q.readIdx_ = R % q.capacity_ ∧ q.writeIdx_ = W % q.capacity_

/-- The queue's logical content under the ghost cursors: the values stored
at the ring positions `R, R+1, …, W-1`. -/
def contentsAbs [Inhabited α] (q : SPSCQ α) (R W : Nat) : List α :=
  (List.range (W - R)).map (fun i => q.items_.getD ((R + i) % q.capacity_) default)

/-! ### Modular arithmetic helpers -/

theorem mod_eq_mod_iff {c A B : Nat} (hc : 0 < c) (hAB : A ≤ B) (hlt : B - A < c) :
    A % c = B % c ↔ A = B := by
  constructor
  · intro h
    have hdvd := (Nat.modEq_iff_dvd' hAB).mp h
    have := Nat.eq_zero_of_dvd_of_lt hdvd
    omega
  · intro h; rw [h]

theorem window_mod {c R d : Nat} (hc : 0 < c) (hd : d < c) :
    ((R + d) % c + c - R % c) % c = d := by
  have ha : R % c < c := Nat.mod_lt _ hc
  by_cases hcase : R % c + d < c
  · have h1 : (R + d) % c = R % c + d := by
      rw [Nat.add_mod, Nat.mod_eq_of_lt hd, Nat.mod_eq_of_lt hcase]
    rw [h1]
    have h2 : R % c + d + c - R % c = d + c := by omega
    rw [h2, Nat.add_mod_right, Nat.mod_eq_of_lt hd]
  · have h1 : (R + d) % c = R % c + d - c := by
      rw [Nat.add_mod, Nat.mod_eq_of_lt hd]
      rw [Nat.mod_eq_sub_mod (by omega)]
      exact Nat.mod_eq_of_lt (by omega)
    rw [h1]
    have h2 : R % c + d - c + c - R % c = d := by omega
    rw [h2, Nat.mod_eq_of_lt hd]

theorem usub64_mask_eq {k W R c : Nat} (hk : k ≤ 63) (hc : c = 2 ^ k)
    (hw : W < c) (hr : R < c) :
    usub64 W R &&& (c - 1) = (W + c - R) % c := by
  subst hc
  unfold usub64
  rw [and_mask, Nat.mod_mod_of_dvd _ (pow_dvd_pow 2 (by omega : k ≤ 64))]
  have h64 : (2 : Nat) ^ 64 = 2 ^ k * 2 ^ (64 - k) := by
    rw [← pow_add]; congr 1; omega
  have hx : 1 ≤ (2 : Nat) ^ (64 - k) := Nat.one_le_two_pow
  have hmul : 2 ^ k * (2 ^ (64 - k) - 1) = 2 ^ 64 - 2 ^ k := by
    rw [Nat.mul_sub, Nat.mul_one, ← h64]
  have hexp : W + 2 ^ 64 - R = (W + 2 ^ k - R) + 2 ^ k * (2 ^ (64 - k) - 1) := by
    have hkle : (2 : Nat) ^ k ≤ 2 ^ 64 := Nat.pow_le_pow_right (by omega) (by omega)
    omega
  rw [hexp, Nat.add_mul_mod_self_left]

/-! ### SPSC per-operation lemmas -/

theorem spsc_push_ok_spec {α : Type} [Inhabited α] (q : SPSCQ α) (R W : Nat) (v : α)
    (hb : SPSCBasic q) (ha : SPSCAbs q R W) (hlt : W - R < q.capacity_ - 1) :
    (q.push v).2 = true ∧ SPSCBasic (q.push v).1 ∧ SPSCAbs (q.push v).1 R (W + 1) ∧
      (q.push v).1.capacity_ = q.capacity_ ∧
      contentsAbs (q.push v).1 R (W + 1) = contentsAbs q R W ++ [v] := by
  obtain ⟨⟨k, hk1, hk63, hcap⟩, hlen⟩ := hb
  obtain ⟨hRW, hocc, hr, hw⟩ := ha
  have hc2 : 2 ≤ q.capacity_ := hcap ▸ two_le_two_pow hk1
  have hc0 : 0 < q.capacity_ := by omega
  have hmask : (q.writeIdx_ + 1) &&& (q.capacity_ - 1) = (W + 1) % q.capacity_ := by
    rw [hw, hcap, and_mask, ← hcap, Nat.mod_add_mod]
  have hcond : (q.writeIdx_ + 1) &&& (q.capacity_ - 1) ≠ q.readIdx_ := by
    rw [hmask, hr]
    intro h
    have := (mod_eq_mod_iff hc0 (by omega : R ≤ W + 1) (by omega)).mp h.symm
    omega
  have hpush : q.push v =
      ({ q with
          items_ := q.items_.set q.writeIdx_ v
          writeIdx_ := (q.writeIdx_ + 1) &&& (q.capacity_ - 1) }, true) := by
    unfold SPSCQ.push
    rw [if_neg hcond]
  refine ⟨by rw [hpush], ⟨⟨k, hk1, hk63, by rw [hpush]; exact hcap⟩, ?_⟩, ?_, by rw [hpush], ?_⟩
  · rw [hpush]; simpa using hlen
  · rw [hpush]
    exact ⟨by omega, by simpa using by omega, hr, by simpa using hmask⟩
  · rw [hpush]
    show (List.range (W + 1 - R)).map _ = (List.range (W - R)).map _ ++ [v]
    have hd : W + 1 - R = (W - R) + 1 := by omega
    rw [hd, List.range_succ, List.map_append]
    congr 1
    · apply List.map_congr_left
      intro i hi
      have hi' : i < W - R := List.mem_range.mp hi
      show (q.items_.set q.writeIdx_ v).getD ((R + i) % q.capacity_) default =
        q.items_.getD ((R + i) % q.capacity_) default
      apply getD_set_ne
      rw [hw]
      intro h
      have := (mod_eq_mod_iff hc0 (by omega : R + i ≤ W) (by omega)).mp h.symm
      omega
    · show [(q.items_.set q.writeIdx_ v).getD ((R + (W - R)) % q.capacity_) default] = [v]
      have hRW' : R + (W - R) = W := by omega
      rw [hRW', ← hw]
      congr 1
      exact getD_set_self _ _ _ _ (by rw [hlen, hw]; exact Nat.mod_lt _ hc0)

theorem spsc_push_full_spec {α : Type} (q : SPSCQ α) (R W : Nat) (v : α)
    (hb : SPSCBasic q) (ha : SPSCAbs q R W) (hfull : W - R = q.capacity_ - 1) :
    q.push v = (q, false) := by
  obtain ⟨⟨k, hk1, hk63, hcap⟩, hlen⟩ := hb
  obtain ⟨hRW, hocc, hr, hw⟩ := ha
  have hc2 : 2 ≤ q.capacity_ := hcap ▸ two_le_two_pow hk1
  have hcond : (q.writeIdx_ + 1) &&& (q.capacity_ - 1) = q.readIdx_ := by
    rw [hw, hcap, and_mask, ← hcap, Nat.mod_add_mod, hr]
    have hWR : W + 1 = R + q.capacity_ := by omega
    rw [hWR, Nat.add_mod_right]
  unfold SPSCQ.push
  rw [if_pos hcond]

theorem spsc_pop_ok_spec {α : Type} [Inhabited α] (q : SPSCQ α) (R W : Nat)
    (hb : SPSCBasic q) (ha : SPSCAbs q R W) (hne : R < W) :
    (q.pop).2 = some (q.items_.getD (R % q.capacity_) default) ∧
      SPSCBasic (q.pop).1 ∧ SPSCAbs (q.pop).1 (R + 1) W ∧
      (q.pop).1.capacity_ = q.capacity_ ∧
      contentsAbs q R W =
        q.items_.getD (R % q.capacity_) default :: contentsAbs (q.pop).1 (R + 1) W := by
  obtain ⟨⟨k, hk1, hk63, hcap⟩, hlen⟩ := hb
  obtain ⟨hRW, hocc, hr, hw⟩ := ha
  have hc2 : 2 ≤ q.capacity_ := hcap ▸ two_le_two_pow hk1
  have hc0 : 0 < q.capacity_ := by omega
  have hcond : q.readIdx_ ≠ q.writeIdx_ := by
    rw [hr, hw]
    intro h
    have := (mod_eq_mod_iff hc0 (by omega : R ≤ W) (by omega)).mp h
    omega
  have hpop : q.pop =
      ({ q with readIdx_ := (q.readIdx_ + 1) &&& (q.capacity_ - 1) },
        some (q.items_.getD q.readIdx_ default)) := by
    unfold SPSCQ.pop
    rw [if_neg hcond]
  have hmask : (q.readIdx_ + 1) &&& (q.capacity_ - 1) = (R + 1) % q.capacity_ := by
    rw [hr, hcap, and_mask, ← hcap, Nat.mod_add_mod]
  refine ⟨by rw [hpop, hr], ⟨⟨k, hk1, hk63, by rw [hpop]; exact hcap⟩, by rw [hpop]; exact hlen⟩,
    ?_, by rw [hpop], ?_⟩
  · rw [hpop]
    exact ⟨by omega, by simpa using by omega, by simpa using hmask, hw⟩
  · show (List.range (W - R)).map _ = _ :: (List.range (W - (R + 1))).map _
    have hd : W - R = (W - (R + 1)) + 1 := by omega
    simp only [hd, List.range_succ_eq_map, List.map_cons, Nat.add_zero, List.map_map, hpop]
    congr 1
    apply List.map_congr_left
    intro i hi
    show q.items_.getD ((R + (i + 1)) % q.capacity_) default =
      q.items_.getD ((R + 1 + i) % q.capacity_) default
    congr 2
    omega

theorem spsc_pop_empty_spec {α : Type} [Inhabited α] (q : SPSCQ α) (R W : Nat)
    (ha : SPSCAbs q R W) (heq : R = W) : q.pop = (q, none) := by
  obtain ⟨hRW, hocc, hr, hw⟩ := ha
  have hcond : q.readIdx_ = q.writeIdx_ := by rw [hr, hw, heq]
  unfold SPSCQ.pop
  rw [if_pos hcond]

/-! ### SPSC: run lemma and observer lemmas -/

theorem runOps_cons_push {α : Type} [Inhabited α] (q : SPSCQ α) (v : α) (ops : List (QOp α)) :
    q.runOps (QOp.push v :: ops) =
      (((q.push v).1.runOps ops).1,
       (if (q.push v).2 then [v] else []) ++ ((q.push v).1.runOps ops).2.1,
       ((q.push v).1.runOps ops).2.2) := rfl

theorem runOps_cons_pop {α : Type} [Inhabited α] (q : SPSCQ α) (ops : List (QOp α)) :
    q.runOps (QOp.pop :: ops) =
      (((q.pop).1.runOps ops).1,
       ((q.pop).1.runOps ops).2.1,
       (q.pop).2.toList ++ ((q.pop).1.runOps ops).2.2) := rfl

theorem spsc_runOps_fifo {α : Type} [Inhabited α] (ops : List (QOp α)) :
    ∀ (q : SPSCQ α) (R W : Nat), SPSCBasic q → SPSCAbs q R W →
    ∃ Rf Wf, SPSCBasic (q.runOps ops).1 ∧ SPSCAbs (q.runOps ops).1 Rf Wf ∧
      (q.runOps ops).1.capacity_ = q.capacity_ ∧
      (q.runOps ops).2.2 ++ contentsAbs (q.runOps ops).1 Rf Wf =
        contentsAbs q R W ++ (q.runOps ops).2.1 := by
  induction ops with
  | nil =>
    intro q R W hb ha
    exact ⟨R, W, hb, ha, rfl, by simp [SPSCQ.runOps]⟩
  | cons op ops ih =>
    intro q R W hb ha
    have hocc : W - R ≤ q.capacity_ - 1 := ha.2.1
    cases op with
    | push v =>
      rw [runOps_cons_push]
      by_cases hfull : W - R = q.capacity_ - 1
      · have hp := spsc_push_full_spec q R W v hb ha hfull
        rw [hp]
        obtain ⟨Rf, Wf, h1, h2, h3, h4⟩ := ih q R W hb ha
        exact ⟨Rf, Wf, h1, h2, h3, by simpa using h4⟩
      · have h := spsc_push_ok_spec q R W v hb ha (by omega)
        obtain ⟨Rf, Wf, h1, h2, h3, h4⟩ := ih (q.push v).1 R (W + 1) h.2.1 h.2.2.1
        refine ⟨Rf, Wf, h1, h2, h3.trans h.2.2.2.1, ?_⟩
        rw [h.1, if_pos rfl, h4, h.2.2.2.2, List.append_assoc]
    | pop =>
      rw [runOps_cons_pop]
      have hRW : R ≤ W := ha.1
      by_cases hempty : R = W
      · have hp' := spsc_pop_empty_spec q R W ha hempty
        rw [hp']
        obtain ⟨Rf, Wf, h1, h2, h3, h4⟩ := ih q R W hb ha
        exact ⟨Rf, Wf, h1, h2, h3, by simpa using h4⟩
      · have hne : R < W := by omega
        have h := spsc_pop_ok_spec q R W hb ha hne
        obtain ⟨Rf, Wf, h1, h2, h3, h4⟩ := ih (q.pop).1 (R + 1) W h.2.1 h.2.2.1
        refine ⟨Rf, Wf, h1, h2, h3.trans h.2.2.2.1, ?_⟩
        rw [h.1, h.2.2.2.2]
        show (q.items_.getD (R % q.capacity_) default :: ((q.pop).1.runOps ops).2.2) ++ _ = _
        rw [List.cons_append, h4]
        rfl

theorem spsc_new_spec {α : Type} [Inhabited α] {cap : Nat} {q0 : SPSCQ α}
    (hnew : SPSCQ.new α cap = Except.ok q0) (hlt : cap < 2 ^ 64) :
    SPSCBasic q0 ∧ SPSCAbs q0 0 0 ∧ q0.capacity_ = cap ∧ contentsAbs q0 0 0 = [] := by
  unfold SPSCQ.new at hnew
  by_cases h : cap < 2 ∨ popcount (cap % 2 ^ 64) ≠ 1
  · rw [if_pos h] at hnew
    exact absurd hnew (by simp)
  · rw [if_neg h] at hnew
    push_neg at h
    obtain ⟨h2, hpc⟩ := h
    have hq0 : q0 = ⟨cap, List.replicate cap default, 0, 0⟩ := (Except.ok.inj hnew).symm
    have hpow : ∃ k, cap = 2 ^ k := by
      rw [Nat.mod_eq_of_lt hlt] at hpc
      exact (popcount_eq_one_iff cap).mp hpc
    obtain ⟨k, hk1, hk63, hcap⟩ := pow2_range (by omega) hlt hpow
    subst hq0
    refine ⟨⟨⟨k, hk1, hk63, hcap⟩, by simp⟩, ⟨le_refl 0, by simp, ?_, ?_⟩, rfl, ?_⟩
    · show 0 = 0 % cap; rw [Nat.zero_mod]
    · show 0 = 0 % cap; rw [Nat.zero_mod]
    · show (List.range (0 - 0)).map _ = []
      simp

theorem spsc_size_abs {α : Type} (q : SPSCQ α) (R W : Nat)
    (hb : SPSCBasic q) (ha : SPSCAbs q R W) : q.size = W - R := by
  obtain ⟨⟨k, hk1, hk63, hcap⟩, hlen⟩ := hb
  obtain ⟨hRW, hocc, hr, hw⟩ := ha
  have hc2 : 2 ≤ q.capacity_ := hcap ▸ two_le_two_pow hk1
  have hc0 : 0 < q.capacity_ := by omega
  unfold SPSCQ.size
  rw [hr, hw, usub64_mask_eq hk63 hcap (Nat.mod_lt _ hc0) (Nat.mod_lt _ hc0)]
  have hd : W - R < q.capacity_ := by omega
  have hwin := window_mod (R := R) (d := W - R) hc0 hd
  rw [show R + (W - R) = W from by omega] at hwin
  exact hwin

theorem spsc_full_abs {α : Type} (q : SPSCQ α) (R W : Nat)
    (hb : SPSCBasic q) (ha : SPSCAbs q R W) :
    (q.full = true ↔ W - R = q.capacity_ - 1) := by
  obtain ⟨⟨k, hk1, hk63, hcap⟩, hlen⟩ := hb
  obtain ⟨hRW, hocc, hr, hw⟩ := ha
  have hc2 : 2 ≤ q.capacity_ := hcap ▸ two_le_two_pow hk1
  have hc0 : 0 < q.capacity_ := by omega
  unfold SPSCQ.full
  rw [hr, hw, hcap, and_mask, ← hcap, Nat.mod_add_mod, beq_iff_eq]
  constructor
  · intro h
    by_contra hne
    have := (mod_eq_mod_iff hc0 (by omega : R ≤ W + 1) (by omega)).mp h.symm
    omega
  · intro h
    have hWR : W + 1 = R + q.capacity_ := by omega
    rw [hWR, Nat.add_mod_right]

theorem spsc_push_false_iff {α : Type} (q : SPSCQ α) (v : α) :
    ((q.push v).2 = false ↔ q.full = true) ∧
    ((q.push v).2 = false → (q.push v).1 = q) := by
  unfold SPSCQ.push SPSCQ.full
  by_cases h : (q.writeIdx_ + 1) &&& (q.capacity_ - 1) = q.readIdx_
  · rw [if_pos h]
    exact ⟨by simp [h], fun _ => rfl⟩
  · rw [if_neg h]
    exact ⟨by simp [h], fun hf => absurd hf (by simp)⟩

/-! ### SPSC claims (C6, C7) -/

/-- C6: for any sequential run on a constructed SPSC queue, the popped
values are exactly the first pops of the successfully pushed values, in
order — FIFO with no duplication or drop, the remainder still queued — and
the literal capacity-4 scenario holds: pushes of 1, 2, 3 succeed, a fourth
push of 10 is refused (full, one slot reserved), the next two pops yield 1
then 2, a push of 11 succeeds, and `size()` returns 2. -/
theorem spsc_fifo_and_scenario {α : Type} [Inhabited α] (cap : Nat) (q0 : SPSCQ α)
    (ops : List (QOp α)) (hnew : SPSCQ.new α cap = Except.ok q0) (hlt : cap < 2 ^ 64) :
    (∃ rest, (q0.runOps ops).2.1 = (q0.runOps ops).2.2 ++ rest ∧
      rest.length = (q0.runOps ops).1.size) ∧
    ((⟨4, [0, 0, 0, 0], 0, 0⟩ : SPSCQ Nat).runOps
        [QOp.push 1, QOp.push 2, QOp.push 3, QOp.push 10,
          QOp.pop, QOp.pop, QOp.push 11]).2.1 = [1, 2, 3, 11] ∧
    ((⟨4, [0, 0, 0, 0], 0, 0⟩ : SPSCQ Nat).runOps
        [QOp.push 1, QOp.push 2, QOp.push 3, QOp.push 10,
          QOp.pop, QOp.pop, QOp.push 11]).2.2 = [1, 2] ∧
    ((⟨4, [0, 0, 0, 0], 0, 0⟩ : SPSCQ Nat).runOps
        [QOp.push 1, QOp.push 2, QOp.push 3, QOp.push 10,
          QOp.pop, QOp.pop, QOp.push 11]).1.size = 2 := by
  obtain ⟨hb0, ha0, hcap0, hcon0⟩ := spsc_new_spec hnew hlt
  obtain ⟨Rf, Wf, h1, h2, h3, h4⟩ := spsc_runOps_fifo ops q0 0 0 hb0 ha0
  rw [hcon0, List.nil_append] at h4
  refine ⟨⟨contentsAbs (q0.runOps ops).1 Rf Wf, h4.symm, ?_⟩, by decide, by decide, by decide⟩
  show ((List.range (Wf - Rf)).map _).length = _
  rw [List.length_map, List.length_range, spsc_size_abs _ _ _ h1 h2]

/-- Witness for `spsc_fifo_and_scenario`: capacity 2, one push and one
pop. -/
theorem spsc_fifo_and_scenario_witness :
    (SPSCQ.new Nat 2 = Except.ok (⟨2, [0, 0], 0, 0⟩ : SPSCQ Nat) ∧ 2 < 2 ^ 64) ∧
    (∃ rest, ((⟨2, [0, 0], 0, 0⟩ : SPSCQ Nat).runOps [QOp.push 5, QOp.pop]).2.1 =
      ((⟨2, [0, 0], 0, 0⟩ : SPSCQ Nat).runOps [QOp.push 5, QOp.pop]).2.2 ++ rest ∧
      rest.length = ((⟨2, [0, 0], 0, 0⟩ : SPSCQ Nat).runOps [QOp.push 5, QOp.pop]).1.size) := by
  have hnew : SPSCQ.new Nat 2 = Except.ok (⟨2, [0, 0], 0, 0⟩ : SPSCQ Nat) := by
    show (if (2 : Nat) < 2 ∨ popcount (2 % 2 ^ 64) ≠ 1 then _ else _) = _
    norm_num [popcount, popcountAux]
    rfl
  have h := spsc_fifo_and_scenario 2 (⟨2, [0, 0], 0, 0⟩ : SPSCQ Nat)
    [QOp.push 5, QOp.pop] hnew (by norm_num)
  exact ⟨⟨hnew, by norm_num⟩, h.1⟩

/-- C7: in every reachable state of a constructed SPSC queue, `size()` is
at most `capacity - 1`, `full()` holds exactly when `size()` equals
`capacity - 1`, and `push` returns false exactly when the queue is full —
in which case it leaves the queue unchanged (one slot stays unused so
empty and full are disjoint). -/
theorem spsc_reachable_invariants {α : Type} [Inhabited α] (cap : Nat) (q0 : SPSCQ α)
    (ops : List (QOp α)) (v : α) (hnew : SPSCQ.new α cap = Except.ok q0)
    (hlt : cap < 2 ^ 64) :
    (q0.runOps ops).1.size ≤ (q0.runOps ops).1.capacity_ - 1 ∧
    ((q0.runOps ops).1.full = true ↔
      (q0.runOps ops).1.size = (q0.runOps ops).1.capacity_ - 1) ∧
    (((q0.runOps ops).1.push v).2 = false ↔ (q0.runOps ops).1.full = true) ∧
    (((q0.runOps ops).1.push v).2 = false → ((q0.runOps ops).1.push v).1 = (q0.runOps ops).1) := by
  obtain ⟨hb0, ha0, hcap0, hcon0⟩ := spsc_new_spec hnew hlt
  obtain ⟨Rf, Wf, h1, h2, h3, h4⟩ := spsc_runOps_fifo ops q0 0 0 hb0 ha0
  have hsize := spsc_size_abs _ _ _ h1 h2
  refine ⟨?_, ?_, (spsc_push_false_iff _ v).1, (spsc_push_false_iff _ v).2⟩
  · rw [hsize]; exact h2.2.1
  · rw [hsize]; exact spsc_full_abs _ _ _ h1 h2

/-- Witness for `spsc_reachable_invariants`: capacity 2, a single push,
then another push attempt (which meets a full queue). -/
theorem spsc_reachable_invariants_witness :
    (SPSCQ.new Nat 2 = Except.ok (⟨2, [0, 0], 0, 0⟩ : SPSCQ Nat) ∧ 2 < 2 ^ 64) ∧
    (((⟨2, [0, 0], 0, 0⟩ : SPSCQ Nat).runOps [QOp.push 5]).1.full = true ↔
      ((⟨2, [0, 0], 0, 0⟩ : SPSCQ Nat).runOps [QOp.push 5]).1.size =
        ((⟨2, [0, 0], 0, 0⟩ : SPSCQ Nat).runOps [QOp.push 5]).1.capacity_ - 1) ∧
    ((((⟨2, [0, 0], 0, 0⟩ : SPSCQ Nat).runOps [QOp.push 5]).1.push 6).2 = false ↔
      ((⟨2, [0, 0], 0, 0⟩ : SPSCQ Nat).runOps [QOp.push 5]).1.full = true) := by
  have hnew : SPSCQ.new Nat 2 = Except.ok (⟨2, [0, 0], 0, 0⟩ : SPSCQ Nat) := by
    show (if (2 : Nat) < 2 ∨ popcount (2 % 2 ^ 64) ≠ 1 then _ else _) = _
    norm_num [popcount, popcountAux]
    rfl
  have h := spsc_reachable_invariants 2 (⟨2, [0, 0], 0, 0⟩ : SPSCQ Nat)
    [QOp.push 5] 6 hnew (by norm_num)
  exact ⟨⟨hnew, by norm_num⟩, h.2.1, h.2.2.1⟩

/-! ### MPSC queue (`mpsc_queue.hpp`)

Bounded Vyukov-style cell array: each cell carries a sequence number, the
producers advance `head_` by compare-and-swap, the single consumer advances
`tail_`.  All three of `head_`, `tail_` and the sequences are free-running
`size_t` counters (reduced modulo `2 ^ 64`). -/

/-- A cell of the MPSC buffer: `sequence` plus the payload. -/
structure MPSCCell (α : Type) where
  sequence : Nat
  value : α
  deriving Repr, DecidableEq

/-- Shared state of `MPSCQ`. -/
structure MPSCQ (α : Type) where
  capacity_ : Nat
  mask_ : Nat
  buffer_ : List (MPSCCell α)
  head_ : Nat
  tail_ : Nat
  deriving Repr, DecidableEq

/-- The constructor `MPSCQ::MPSCQ(size_t capacity)`: computes
`mask_ = capacity - 1` and allocates the buffer, throws `std::logic_error`
unless `capacity ≥ 2` and `capacity & (capacity - 1) == 0`, then seeds each
cell's sequence with its index. -/
def MPSCQ.new (α : Type) [Inhabited α] (capacity : Nat) : Except String (MPSCQ α) :=
  if capacity < 2 ∨ capacity &&& (capacity - 1) ≠ 0 then
    Except.error "Capacity must be a power of 2 and > 1"
  else
    Except.ok
      { capacity_ := capacity
        mask_ := capacity - 1
        buffer_ := (List.range capacity).map (fun i => ⟨i, default⟩)
        head_ := 0
        tail_ := 0 }

/-- `MPSCQ::emplace_impl`, run atomically (the sequential semantics of one
successful claim loop iteration): load `head_`, read the claimed cell's
sequence, form the signed difference.  `diff = 0`: the compare-and-swap on
`head_` succeeds (no concurrent producer in a sequential run), the value is
stored and the cell publishes `pos + 1`.  `diff < 0`: return false (full).
`diff > 0` would make the sequential loop spin forever; that case is
returned as `none` and proved unreachable. -/
def MPSCQ.push (q : MPSCQ α) (v : α) : Option (MPSCQ α × Bool) :=
  let pos := q.head_
  let cell := q.buffer_.getD (pos &&& q.mask_) ⟨0, v⟩
  let seq := cell.sequence
  let diff := sdiff64 seq pos
  if diff = 0 then
    some
      ({ q with
          head_ := (pos + 1) % 2 ^ 64
          buffer_ := q.buffer_.set (pos &&& q.mask_) ⟨(pos + 1) % 2 ^ 64, v⟩ }, true)
  else if diff < 0 then
    some (q, false)
  else
    none

/-- `MPSCQ::pop_impl`: load `tail_`, read the cell's sequence, compare with
`pos + 1`; if it lags, return nothing (empty), else move the value out,
set the sequence to `pos + capacity_` and advance `tail_`. -/
def MPSCQ.pop [Inhabited α] (q : MPSCQ α) : MPSCQ α × Option α :=
  let pos := q.tail_
  let cell := q.buffer_.getD (pos &&& q.mask_) ⟨0, default⟩
  let seq := cell.sequence
  let diff := sdiff64 seq ((pos + 1) % 2 ^ 64)
  if diff < 0 then
    (q, none)
  else
    ({ q with
        buffer_ := q.buffer_.set (pos &&& q.mask_) ⟨(pos + q.capacity_) % 2 ^ 64, cell.value⟩
        tail_ := (pos + 1) % 2 ^ 64 },
     some cell.value)

/-- `MPSCQ::size`: `head - tail` in `size_t` arithmetic. -/
def MPSCQ.size (q : MPSCQ α) : Nat := usub64 q.head_ q.tail_

/-- `MPSCQ::empty`. -/
def MPSCQ.empty (q : MPSCQ α) : Bool := q.size == 0

/-- `MPSCQ::full`. -/
def MPSCQ.full (q : MPSCQ α) : Bool := decide (q.size ≥ q.capacity_)

/-! ### Power-of-two test used by the MPSC constructor -/

theorem land_pred_eq_zero_iff (x : Nat) (hx : 1 ≤ x) :
    x &&& (x - 1) = 0 ↔ ∃ k, x = 2 ^ k := by
  induction x using Nat.strong_induction_on with
  | _ x ih =>
    match x, hx with
    | 1, _ => exact ⟨fun _ => ⟨0, rfl⟩, fun _ => by decide⟩
    | x + 2, _ =>
      obtain ⟨m, hm⟩ : ∃ m, (x + 2) / 2 = m := ⟨_, rfl⟩
      have hm1 : 1 ≤ m := by omega
      by_cases he : (x + 2) % 2 = 0
      · have hbit : (x + 2 : Nat) = Nat.bit false m := by
          simp [Nat.bit_val]; omega
        have hbit' : (x + 2 - 1 : Nat) = Nat.bit true (m - 1) := by
          simp [Nat.bit_val]; omega
        have hland : (x + 2) &&& (x + 2 - 1) = Nat.bit false (m &&& (m - 1)) := by
          rw [hbit', hbit, Nat.land_bit]
          rfl
        constructor
        · intro h
          rw [hland] at h
          simp [Nat.bit_val] at h
          obtain ⟨k, hk⟩ := (ih m (by omega) hm1).mp h
          refine ⟨k + 1, ?_⟩
          have hp : 2 ^ (k + 1) = 2 ^ k * 2 := by rw [pow_succ]
          omega
        · rintro ⟨k, hk⟩
          match k with
          | 0 => omega
          | k + 1 =>
            have hp : 2 ^ (k + 1) = 2 ^ k * 2 := by rw [pow_succ]
            have hz := (ih m (by omega) hm1).mpr ⟨k, by omega⟩
            rw [hland]
            simp [Nat.bit_val, hz]
      · have hbit : (x + 2 : Nat) = Nat.bit true m := by
          simp [Nat.bit_val]; omega
        have hbit' : (x + 2 - 1 : Nat) = Nat.bit false m := by
          simp [Nat.bit_val]; omega
        have hland : (x + 2) &&& (x + 2 - 1) = Nat.bit false (m &&& m) := by
          rw [hbit', hbit, Nat.land_bit]
          rfl
        constructor
        · intro h
          rw [hland, Nat.and_self] at h
          simp [Nat.bit_val] at h
          omega
        · rintro ⟨k, hk⟩
          match k with
          | 0 => omega
          | k + 1 =>
            have hp : 2 ^ (k + 1) = 2 ^ k * 2 := by rw [pow_succ]
            omega

/-! ### Construction validation (C9) -/

/-- C9: each of the three constructors fails with the logic-error fault
exactly when the capacity is below 2 or not a power of two (the SPSC and
SPMC constructors test `bitset<64>::count() == 1`, the MPSC constructor
tests `capacity & (capacity - 1) == 0`; for a `size_t` capacity the tests
agree), and on success the backing storage holds exactly `capacity`
slots. -/
theorem queue_construction_validation {α : Type} [Inhabited α] (cap : Nat)
    (hlt : cap < 2 ^ 64) :
    ((∃ e, SPSCQ.new α cap = Except.error e) ↔ (cap < 2 ∨ ¬∃ k, cap = 2 ^ k)) ∧
    ((∃ e, SPMCQ.new α cap = Except.error e) ↔ (cap < 2 ∨ ¬∃ k, cap = 2 ^ k)) ∧
    ((∃ e, MPSCQ.new α cap = Except.error e) ↔ (cap < 2 ∨ ¬∃ k, cap = 2 ^ k)) ∧
    (∀ q : SPSCQ α, SPSCQ.new α cap = Except.ok q → q.items_.length = cap) ∧
    (∀ q : SPMCQ α, SPMCQ.new α cap = Except.ok q → q.items_.length = cap) ∧
    (∀ q : MPSCQ α, MPSCQ.new α cap = Except.ok q → q.buffer_.length = cap) := by
  have hpopc : (popcount (cap % 2 ^ 64) = 1) ↔ ∃ k, cap = 2 ^ k := by
    rw [Nat.mod_eq_of_lt hlt]; exact popcount_eq_one_iff cap
  have hbitset : (cap < 2 ∨ popcount (cap % 2 ^ 64) ≠ 1) ↔ (cap < 2 ∨ ¬∃ k, cap = 2 ^ k) := by
    simp only [ne_eq, hpopc]
  have hland : (cap < 2 ∨ cap &&& (cap - 1) ≠ 0) ↔ (cap < 2 ∨ ¬∃ k, cap = 2 ^ k) := by
    by_cases h2 : cap < 2
    · simp [h2]
    · simp only [ne_eq]
      rw [land_pred_eq_zero_iff cap (by omega)]
  refine ⟨?_, ?_, ?_, ?_, ?_, ?_⟩
  · unfold SPSCQ.new
    by_cases h : cap < 2 ∨ popcount (cap % 2 ^ 64) ≠ 1
    · rw [if_pos h]
      exact ⟨fun _ => hbitset.mp h, fun _ => ⟨_, rfl⟩⟩
    · rw [if_neg h]
      exact ⟨fun ⟨e, he⟩ => absurd he (by simp), fun hc => absurd (hbitset.mpr hc) h⟩
  · unfold SPMCQ.new
    by_cases h : cap < 2 ∨ popcount (cap % 2 ^ 64) ≠ 1
    · rw [if_pos h]
      exact ⟨fun _ => hbitset.mp h, fun _ => ⟨_, rfl⟩⟩
    · rw [if_neg h]
      exact ⟨fun ⟨e, he⟩ => absurd he (by simp), fun hc => absurd (hbitset.mpr hc) h⟩
  · unfold MPSCQ.new
    by_cases h : cap < 2 ∨ cap &&& (cap - 1) ≠ 0
    · rw [if_pos h]
      exact ⟨fun _ => hland.mp h, fun _ => ⟨_, rfl⟩⟩
    · rw [if_neg h]
      exact ⟨fun ⟨e, he⟩ => absurd he (by simp), fun hc => absurd (hland.mpr hc) h⟩
  · intro q hq
    unfold SPSCQ.new at hq
    by_cases h : cap < 2 ∨ popcount (cap % 2 ^ 64) ≠ 1
    · rw [if_pos h] at hq; exact absurd hq (by simp)
    · rw [if_neg h] at hq
      rw [← Except.ok.inj hq]
      simp
  · intro q hq
    unfold SPMCQ.new at hq
    by_cases h : cap < 2 ∨ popcount (cap % 2 ^ 64) ≠ 1
    · rw [if_pos h] at hq; exact absurd hq (by simp)
    · rw [if_neg h] at hq
      rw [← Except.ok.inj hq]
      simp
  · intro q hq
    unfold MPSCQ.new at hq
    by_cases h : cap < 2 ∨ cap &&& (cap - 1) ≠ 0
    · rw [if_pos h] at hq; exact absurd hq (by simp)
    · rw [if_neg h] at hq
      rw [← Except.ok.inj hq]
      simp

/-- Witness for `queue_construction_validation` at capacity 4 and at
capacity 3. -/
theorem queue_construction_validation_witness :
    ((4 : Nat) < 2 ^ 64 ∧ (3 : Nat) < 2 ^ 64) ∧
    (∀ q : MPSCQ Nat, MPSCQ.new Nat 4 = Except.ok q → q.buffer_.length = 4) ∧
    ((∃ e, SPSCQ.new Nat 3 = Except.error e) ↔ (3 < 2 ∨ ¬∃ k, (3 : Nat) = 2 ^ k)) := by
  refine ⟨⟨by norm_num, by norm_num⟩, ?_, ?_⟩
  · exact (queue_construction_validation 4 (by norm_num)).2.2.2.2.2
  · exact (queue_construction_validation 3 (by norm_num)).1

/-! ### Signed 64-bit difference lemmas -/

theorem sdiff64_nonneg_spec {x y : Nat} (h : x ≤ y) (hd : y - x < 2 ^ 63) :
    sdiff64 (y % 2 ^ 64) (x % 2 ^ 64) = ((y - x : Nat) : Int) := by
  have hkey : (y % 2 ^ 64 + 2 ^ 64 - x % 2 ^ 64) % 2 ^ 64 = y - x := by
    have hx : x % 2 ^ 64 < 2 ^ 64 := Nat.mod_lt _ (by norm_num)
    have hy : y = x + (y - x) := by omega
    have hw := window_mod (c := 2 ^ 64) (R := x) (d := y - x) (by norm_num) (by omega)
    rw [← hy] at hw
    exact hw
  unfold sdiff64 usub64 toSigned64
  rw [hkey, if_pos (by omega)]

theorem sdiff64_neg_spec {x y : Nat} (h : x < y) (hd : y - x ≤ 2 ^ 63) :
    sdiff64 (x % 2 ^ 64) (y % 2 ^ 64) = -((y - x : Nat) : Int) := by
  have hx : x % 2 ^ 64 < 2 ^ 64 := Nat.mod_lt _ (by norm_num)
  have hy' : y % 2 ^ 64 < 2 ^ 64 := Nat.mod_lt _ (by norm_num)
  have hyx : y = x + (y - x) := by omega
  have hcases : y % 2 ^ 64 = x % 2 ^ 64 + (y - x) ∨
      y % 2 ^ 64 + 2 ^ 64 = x % 2 ^ 64 + (y - x) := by
    rcases Nat.lt_or_ge (x % 2 ^ 64 + (y - x)) (2 ^ 64) with hlt | hge
    · left
      conv_lhs => rw [hyx]
      rw [Nat.add_mod, Nat.mod_eq_of_lt (by omega : y - x < 2 ^ 64),
        Nat.mod_eq_of_lt hlt]
    · right
      conv_lhs => rw [hyx]
      rw [Nat.add_mod, Nat.mod_eq_of_lt (by omega : y - x < 2 ^ 64)]
      rw [Nat.mod_eq_sub_mod hge, Nat.mod_eq_of_lt (by omega)]
      omega
  have hkey : (x % 2 ^ 64 + 2 ^ 64 - y % 2 ^ 64) % 2 ^ 64 = 2 ^ 64 - (y - x) := by
    rcases hcases with hc | hc
    · have he : x % 2 ^ 64 + 2 ^ 64 - y % 2 ^ 64 = 2 ^ 64 - (y - x) := by omega
      rw [he, Nat.mod_eq_of_lt (by omega)]
    · have he : x % 2 ^ 64 + 2 ^ 64 - y % 2 ^ 64 = 2 ^ 64 + (2 ^ 64 - (y - x)) := by omega
      rw [he, Nat.add_mod_left, Nat.mod_eq_of_lt (by omega)]
  unfold sdiff64 usub64 toSigned64
  rw [hkey, if_neg (by omega)]
  have hcast : ((2 ^ 64 - (y - x) : Nat) : Int) = 2 ^ 64 - ((y - x : Nat) : Int) := by
    omega
  rw [hcast]
  ring

/-! ### MPSC invariant and per-operation lemmas -/

theorem getD_append_left {α : Type} (l : List α) (v d : α) (i : Nat) (h : i < l.length) :
    (l ++ [v]).getD i d = l.getD i d := by
  simp [List.getD, List.getElem?_append_left h]

theorem getD_append_length {α : Type} (l : List α) (v d : α) :
    (l ++ [v]).getD l.length d = v := by
  simp [List.getD]

theorem getD_range_map {β : Type} (f : Nat → β) (c i : Nat) (d : β) (h : i < c) :
    ((List.range c).map f).getD i d = f i := by
  simp [List.getD, List.getElem?_map, List.getElem?_range, h]

/-- Ghost-cursor invariant of the MPSC queue: `P` pops and `H` successful
pushes (the values `pushed`, in claim order) have happened; the stored
cursors are the 64-bit residues of `P` and `H`; and every ring slot, read
through the position `p ∈ [P, P + c)` that owns it this round, is either
occupied (`p < H`: sequence `p + 1`, holding the value pushed at `p`) or
free (`p ≥ H`: sequence `p`), both modulo `2 ^ 64`. -/
def MPSCInv {α : Type} [Inhabited α] (c : Nat) (q : MPSCQ α) (P H : Nat)
    (pushed : List α) : Prop :=
  q.capacity_ = c ∧ q.mask_ = c - 1 ∧ q.buffer_.length = c ∧
  P ≤ H ∧ H ≤ P + c ∧
  q.head_ = H % 2 ^ 64 ∧ q.tail_ = P % 2 ^ 64 ∧
  pushed.length = H ∧
  ∀ p, P ≤ p → p < P + c →
    (p < H → (q.buffer_.getD (p % c) ⟨0, default⟩).sequence = (p + 1) % 2 ^ 64 ∧
      (q.buffer_.getD (p % c) ⟨0, default⟩).value = pushed.getD p default) ∧
    (H ≤ p → (q.buffer_.getD (p % c) ⟨0, default⟩).sequence = p % 2 ^ 64)

theorem mpsc_new_inv {α : Type} [Inhabited α] {cap : Nat} {q0 : MPSCQ α}
    (hnew : MPSCQ.new α cap = Except.ok q0) (hlt : cap < 2 ^ 64) :
    (∃ k, 1 ≤ k ∧ k ≤ 63 ∧ cap = 2 ^ k) ∧ MPSCInv cap q0 0 0 [] := by
  unfold MPSCQ.new at hnew
  by_cases h : cap < 2 ∨ cap &&& (cap - 1) ≠ 0
  · rw [if_pos h] at hnew
    exact absurd hnew (by simp)
  · rw [if_neg h] at hnew
    push_neg at h
    obtain ⟨h2, hland⟩ := h
    have hq0 : q0 = ⟨cap, cap - 1, (List.range cap).map (fun i => ⟨i, default⟩), 0, 0⟩ :=
      (Except.ok.inj hnew).symm
    refine ⟨pow2_range (by omega) hlt ((land_pred_eq_zero_iff cap (by omega)).mp hland), ?_⟩
    subst hq0
    refine ⟨rfl, rfl, by simp, by omega, by omega, rfl, rfl, rfl, ?_⟩
    intro p hp0 hpc
    have hpc' : p < cap := by omega
    have hmod : p % cap = p := Nat.mod_eq_of_lt hpc'
    constructor
    · intro hcontra; omega
    · intro _
      show (((List.range cap).map (fun i => (⟨i, default⟩ : MPSCCell α))).getD (p % cap)
        ⟨0, default⟩).sequence = p % 2 ^ 64
      rw [hmod, getD_range_map _ _ _ _ hpc']
      show p = p % 2 ^ 64
      exact (Nat.mod_eq_of_lt (by omega)).symm

theorem mask_mod {c k : Nat} (hc : c = 2 ^ k) (hk63 : k ≤ 63) (x : Nat) :
    (x % 2 ^ 64) &&& (c - 1) = x % c := by
  subst hc
  rw [and_mask]
  exact Nat.mod_mod_of_dvd _ (pow_dvd_pow 2 (by omega))

theorem getD_irrel {α : Type} (l : List α) (i : Nat) (d1 d2 : α) (h : i < l.length) :
    l.getD i d1 = l.getD i d2 := by
  simp [List.getD, List.getElem?_eq_getElem h]

theorem mpsc_push_ok {α : Type} [Inhabited α] {c k : Nat} {q : MPSCQ α} {P H : Nat}
    {pushed : List α} (hk1 : 1 ≤ k) (hk63 : k ≤ 63) (hc : c = 2 ^ k)
    (hinv : MPSCInv c q P H pushed) (hH : H < P + c) (v : α) :
    ∃ q', q.push v = some (q', true) ∧ MPSCInv c q' P (H + 1) (pushed ++ [v]) := by
  obtain ⟨hqc, hqm, hqlen, hPH, hHc, hhead, htail, hplen, hslots⟩ := hinv
  have hc2 : 2 ≤ c := hc ▸ two_le_two_pow hk1
  have hc0 : 0 < c := by omega
  have hidx : q.head_ &&& q.mask_ = H % c := by
    rw [hqm, hhead, mask_mod hc hk63]
  have hHmodlt : H % c < q.buffer_.length := by rw [hqlen]; exact Nat.mod_lt _ hc0
  have hseq : (q.buffer_.getD (H % c) ⟨0, v⟩).sequence = H % 2 ^ 64 := by
    rw [getD_irrel _ _ _ ⟨0, default⟩ hHmodlt]
    exact ((hslots H hPH hH).2 (le_refl H))
  have hdiff : sdiff64 (q.buffer_.getD (q.head_ &&& q.mask_) ⟨0, v⟩).sequence q.head_ = 0 := by
    rw [hidx, hseq, hhead, sdiff64_nonneg_spec (le_refl H) (by norm_num)]
    simp
  have hpush : q.push v = some
      ({ q with
          head_ := (q.head_ + 1) % 2 ^ 64
          buffer_ := q.buffer_.set (q.head_ &&& q.mask_) ⟨(q.head_ + 1) % 2 ^ 64, v⟩ },
        true) := by
    unfold MPSCQ.push
    rw [if_pos hdiff]
  have hh1 : (q.head_ + 1) % 2 ^ 64 = (H + 1) % 2 ^ 64 := by
    rw [hhead, Nat.mod_add_mod]
  refine ⟨_, hpush, hqc, hqm, by simpa using hqlen, by omega, by omega, by simpa using hh1,
    htail, by simpa using hplen, ?_⟩
  intro p hp0 hpc
  have hplt : p % c < q.buffer_.length := by rw [hqlen]; exact Nat.mod_lt _ hc0
  by_cases hpH : p = H
  · subst hpH
    have hset : (q.buffer_.set (q.head_ &&& q.mask_)
        ⟨(q.head_ + 1) % 2 ^ 64, v⟩).getD (p % c) ⟨0, default⟩ =
        ⟨(p + 1) % 2 ^ 64, v⟩ := by
      rw [hidx, hh1]
      exact getD_set_self _ _ _ _ hplt
    constructor
    · intro _
      rw [hset]
      exact ⟨rfl, by rw [← hplen]; exact (getD_append_length pushed v default).symm⟩
    · intro hcontra; omega
  · have hmodne : p % c ≠ H % c := by
      intro h
      rcases Nat.le_total p H with hle | hle
      · exact hpH ((mod_eq_mod_iff hc0 hle (by omega)).mp h)
      · exact hpH ((mod_eq_mod_iff hc0 hle (by omega)).mp h.symm).symm
    have hset : (q.buffer_.set (q.head_ &&& q.mask_)
        ⟨(q.head_ + 1) % 2 ^ 64, v⟩).getD (p % c) ⟨0, default⟩ =
        q.buffer_.getD (p % c) ⟨0, default⟩ := by
      rw [hidx]
      exact getD_set_ne _ _ _ (fun h => hmodne h.symm)
    rw [hset]
    constructor
    · intro hlt
      have hplt' : p < H := by omega
      refine ⟨(hslots p hp0 hpc).1 hplt' |>.1, ?_⟩
      rw [(hslots p hp0 hpc).1 hplt' |>.2]
      exact (getD_append_left pushed v default p (by omega)).symm
    · intro hge
      exact (hslots p hp0 hpc).2 (by omega)

theorem mpsc_push_full {α : Type} [Inhabited α] {c k : Nat} {q : MPSCQ α} {P H : Nat}
    {pushed : List α} (hk1 : 1 ≤ k) (hk63 : k ≤ 63) (hc : c = 2 ^ k)
    (hinv : MPSCInv c q P H pushed) (hH : H = P + c) (v : α) :
    q.push v = some (q, false) := by
  obtain ⟨hqc, hqm, hqlen, hPH, hHc, hhead, htail, hplen, hslots⟩ := hinv
  have hc2 : 2 ≤ c := hc ▸ two_le_two_pow hk1
  have hc0 : 0 < c := by omega
  have hcle : c ≤ 2 ^ 63 := by rw [hc]; exact Nat.pow_le_pow_right (by omega) (by omega)
  have hidx : q.head_ &&& q.mask_ = P % c := by
    rw [hqm, hhead, mask_mod hc hk63, hH, Nat.add_mod_right]
  have hPmodlt : P % c < q.buffer_.length := by rw [hqlen]; exact Nat.mod_lt _ hc0
  have hseq : (q.buffer_.getD (P % c) ⟨0, v⟩).sequence = (P + 1) % 2 ^ 64 := by
    rw [getD_irrel _ _ _ ⟨0, default⟩ hPmodlt]
    exact ((hslots P (le_refl P) (by omega)).1 (by omega)).1
  have hdiff : sdiff64 (q.buffer_.getD (q.head_ &&& q.mask_) ⟨0, v⟩).sequence q.head_ =
      -((c - 1 : Nat) : Int) := by
    rw [hidx, hseq, hhead, hH]
    have := sdiff64_neg_spec (x := P + 1) (y := P + c) (by omega) (by omega)
    rw [show P + c - (P + 1) = c - 1 from by omega] at this
    exact this
  unfold MPSCQ.push
  rw [if_neg (by rw [hdiff]; intro h; simp at h; omega),
    if_pos (by rw [hdiff]; simp; omega)]

theorem mpsc_pop_ok {α : Type} [Inhabited α] {c k : Nat} {q : MPSCQ α} {P H : Nat}
    {pushed : List α} (hk1 : 1 ≤ k) (hk63 : k ≤ 63) (hc : c = 2 ^ k)
    (hinv : MPSCInv c q P H pushed) (hP : P < H) :
    ∃ q', q.pop = (q', some (pushed.getD P default)) ∧ MPSCInv c q' (P + 1) H pushed := by
  obtain ⟨hqc, hqm, hqlen, hPH, hHc, hhead, htail, hplen, hslots⟩ := hinv
  have hc2 : 2 ≤ c := hc ▸ two_le_two_pow hk1
  have hc0 : 0 < c := by omega
  have hidx : q.tail_ &&& q.mask_ = P % c := by
    rw [hqm, htail, mask_mod hc hk63]
  have hPmodlt : P % c < q.buffer_.length := by rw [hqlen]; exact Nat.mod_lt _ hc0
  have hcell : q.buffer_.getD (P % c) ⟨0, default⟩ =
      ⟨(P + 1) % 2 ^ 64, pushed.getD P default⟩ := by
    have h1 := (hslots P (le_refl P) (by omega)).1 hP
    rcases hq : q.buffer_.getD (P % c) (⟨0, default⟩ : MPSCCell α) with ⟨s, w⟩
    rw [hq] at h1
    simp only at h1
    rw [h1.1, h1.2]
  have ht1 : (q.tail_ + 1) % 2 ^ 64 = (P + 1) % 2 ^ 64 := by
    rw [htail, Nat.mod_add_mod]
  have hdiff : sdiff64 (q.buffer_.getD (q.tail_ &&& q.mask_) ⟨0, default⟩).sequence
      ((q.tail_ + 1) % 2 ^ 64) = 0 := by
    rw [hidx, hcell, ht1]
    show sdiff64 ((P + 1) % 2 ^ 64) ((P + 1) % 2 ^ 64) = 0
    rw [sdiff64_nonneg_spec (le_refl (P + 1)) (by norm_num)]
    simp
  have hpop : q.pop =
      ({ q with
          buffer_ := q.buffer_.set (q.tail_ &&& q.mask_)
            ⟨(q.tail_ + q.capacity_) % 2 ^ 64,
              (q.buffer_.getD (q.tail_ &&& q.mask_) ⟨0, default⟩).value⟩
          tail_ := (q.tail_ + 1) % 2 ^ 64 },
        some (q.buffer_.getD (q.tail_ &&& q.mask_) ⟨0, default⟩).value) := by
    unfold MPSCQ.pop
    rw [if_neg (by rw [hdiff]; omega)]
  have hval : (q.buffer_.getD (q.tail_ &&& q.mask_) ⟨0, default⟩).value =
      pushed.getD P default := by
    rw [hidx, hcell]
  have htc : (q.tail_ + q.capacity_) % 2 ^ 64 = (P + c) % 2 ^ 64 := by
    rw [htail, hqc, Nat.mod_add_mod]
  have hpop2 : q.pop =
      ({ q with
          buffer_ := q.buffer_.set (P % c) ⟨(P + c) % 2 ^ 64, pushed.getD P default⟩
          tail_ := (P + 1) % 2 ^ 64 },
        some (pushed.getD P default)) := by
    rw [hpop, hval, hidx, htc, ht1]
  refine ⟨_, hpop2, hqc, hqm, by simpa using hqlen, by omega, by omega, hhead, rfl,
    hplen, ?_⟩
  intro p hp0 hpc
  have hplt : p % c < q.buffer_.length := by rw [hqlen]; exact Nat.mod_lt _ hc0
  by_cases hpP : p = P + c
  · subst hpP
    have hmod : (P + c) % c = P % c := Nat.add_mod_right P c
    have hset : (q.buffer_.set (P % c)
        ⟨(P + c) % 2 ^ 64, pushed.getD P default⟩).getD ((P + c) % c) ⟨0, default⟩ =
        ⟨(P + c) % 2 ^ 64, pushed.getD P default⟩ := by
      rw [hmod]
      exact getD_set_self _ _ _ _ hPmodlt
    constructor
    · intro hcontra; omega
    · intro _
      show ((q.buffer_.set (P % c)
        ⟨(P + c) % 2 ^ 64, pushed.getD P default⟩).getD ((P + c) % c) ⟨0, default⟩).sequence = _
      rw [hset]
  · have hpc' : p < P + c := by omega
    have hmodne : p % c ≠ P % c := by
      intro h
      exact hpP (by
        have := (mod_eq_mod_iff hc0 (by omega : P ≤ p) (by omega)).mp h.symm
        omega)
    have hset : (q.buffer_.set (P % c)
        ⟨(P + c) % 2 ^ 64, pushed.getD P default⟩).getD (p % c) ⟨0, default⟩ =
        q.buffer_.getD (p % c) ⟨0, default⟩ :=
      getD_set_ne _ _ _ (fun h => hmodne h.symm)
    show (p < H → ((q.buffer_.set (P % c) ⟨(P + c) % 2 ^ 64,
        pushed.getD P default⟩).getD (p % c) ⟨0, default⟩).sequence = (p + 1) % 2 ^ 64 ∧
        ((q.buffer_.set (P % c) ⟨(P + c) % 2 ^ 64,
        pushed.getD P default⟩).getD (p % c) ⟨0, default⟩).value = pushed.getD p default) ∧
      (H ≤ p → ((q.buffer_.set (P % c) ⟨(P + c) % 2 ^ 64,
        pushed.getD P default⟩).getD (p % c) ⟨0, default⟩).sequence = p % 2 ^ 64)
    rw [hset]
    exact ⟨fun hlt => (hslots p (by omega) hpc').1 hlt,
      fun hge => (hslots p (by omega) hpc').2 hge⟩

theorem mpsc_pop_empty {α : Type} [Inhabited α] {c k : Nat} {q : MPSCQ α} {P H : Nat}
    {pushed : List α} (hk1 : 1 ≤ k) (hk63 : k ≤ 63) (hc : c = 2 ^ k)
    (hinv : MPSCInv c q P H pushed) (hP : P = H) : q.pop = (q, none) := by
  obtain ⟨hqc, hqm, hqlen, hPH, hHc, hhead, htail, hplen, hslots⟩ := hinv
  have hc2 : 2 ≤ c := hc ▸ two_le_two_pow hk1
  have hc0 : 0 < c := by omega
  have hidx : q.tail_ &&& q.mask_ = P % c := by
    rw [hqm, htail, mask_mod hc hk63]
  have hseq : (q.buffer_.getD (P % c) ⟨0, default⟩).sequence = P % 2 ^ 64 :=
    (hslots P (le_refl P) (by omega)).2 (by omega)
  have ht1 : (q.tail_ + 1) % 2 ^ 64 = (P + 1) % 2 ^ 64 := by
    rw [htail, Nat.mod_add_mod]
  have hdiff : sdiff64 (q.buffer_.getD (q.tail_ &&& q.mask_) ⟨0, default⟩).sequence
      ((q.tail_ + 1) % 2 ^ 64) = -((1 : Nat) : Int) := by
    rw [hidx, hseq, ht1]
    have := sdiff64_neg_spec (x := P) (y := P + 1) (by omega) (by norm_num)
    rw [show P + 1 - P = 1 from by omega] at this
    exact this
  unfold MPSCQ.pop
  rw [if_pos (by rw [hdiff]; simp)]

/-! ### MPSC: sequential runs and the conservation theorem (C8) -/

/-- Run a list of operations on an MPSC queue.  `none` propagates the
(sequentially unreachable) spinning case of `push`. -/
def MPSCQ.runOps [Inhabited α] (q : MPSCQ α) :
    List (QOp α) → Option (MPSCQ α × List α × List α)
  | [] => some (q, [], [])
  | QOp.push v :: ops =>
    match q.push v with
    | none => none
    | some (q1, ok) =>
      match q1.runOps ops with
      | none => none
      | some (qf, ps, os) => some (qf, (if ok then [v] else []) ++ ps, os)
  | QOp.pop :: ops =>
    match (q.pop).1.runOps ops with
    | none => none
    | some (qf, ps, os) => some (qf, ps, (q.pop).2.toList ++ os)

/-- Logical content of an MPSC queue under the ghost cursors: the pushed
values at positions `P, …, H-1`. -/
def mpscContents {α : Type} [Inhabited α] (pushed : List α) (P H : Nat) : List α :=
  (List.range (H - P)).map (fun j => pushed.getD (P + j) default)

theorem mpscContents_push {α : Type} [Inhabited α] (pushed : List α) (P H : Nat) (v : α)
    (hPH : P ≤ H) (hlen : pushed.length = H) :
    mpscContents (pushed ++ [v]) P (H + 1) = mpscContents pushed P H ++ [v] := by
  unfold mpscContents
  have hd : H + 1 - P = (H - P) + 1 := by omega
  rw [hd, List.range_succ, List.map_append]
  congr 1
  · apply List.map_congr_left
    intro j hj
    have hj' : j < H - P := List.mem_range.mp hj
    exact getD_append_left _ _ _ _ (by omega)
  · show [(pushed ++ [v]).getD (P + (H - P)) default] = [v]
    rw [show P + (H - P) = H from by omega, ← hlen]
    rw [getD_append_length]

theorem mpscContents_pop {α : Type} [Inhabited α] (pushed : List α) (P H : Nat)
    (hPH : P < H) :
    mpscContents pushed P H = pushed.getD P default :: mpscContents pushed (P + 1) H := by
  unfold mpscContents
  have hd : H - P = (H - (P + 1)) + 1 := by omega
  rw [hd, List.range_succ_eq_map, List.map_cons, Nat.add_zero, List.map_map]
  congr 1
  apply List.map_congr_left
  intro j hj
  show pushed.getD (P + (j + 1)) default = pushed.getD (P + 1 + j) default
  congr 1
  omega

theorem mpsc_runOps_spec {α : Type} [Inhabited α] {c k : Nat}
    (hk1 : 1 ≤ k) (hk63 : k ≤ 63) (hc : c = 2 ^ k) (ops : List (QOp α)) :
    ∀ (q : MPSCQ α) (P H : Nat) (pushed : List α), MPSCInv c q P H pushed →
    ∃ qf Pf Hf resPush resPop,
      q.runOps ops = some (qf, resPush, resPop) ∧
      MPSCInv c qf Pf Hf (pushed ++ resPush) ∧
      resPop ++ mpscContents (pushed ++ resPush) Pf Hf =
        mpscContents pushed P H ++ resPush := by
  induction ops with
  | nil =>
    intro q P H pushed hinv
    exact ⟨q, P, H, [], [], rfl, by simpa using hinv, by simp⟩
  | cons op ops ih =>
    intro q P H pushed hinv
    have hPH : P ≤ H := hinv.2.2.2.1
    have hHc : H ≤ P + c := hinv.2.2.2.2.1
    have hlen : pushed.length = H := hinv.2.2.2.2.2.2.2.1
    cases op with
    | push v =>
      by_cases hfull : H = P + c
      · have hp := mpsc_push_full hk1 hk63 hc hinv hfull v
        obtain ⟨qf, Pf, Hf, rp, ro, hrun, hinvf, hfifo⟩ := ih q P H pushed hinv
        refine ⟨qf, Pf, Hf, rp, ro, ?_, hinvf, hfifo⟩
        show MPSCQ.runOps q (QOp.push v :: ops) = _
        unfold MPSCQ.runOps
        rw [hp]
        simp only [hrun, if_neg (by simp : ¬false = true)]
        simp
      · obtain ⟨q1, hp, hinv1⟩ := mpsc_push_ok hk1 hk63 hc hinv (by omega) v
        obtain ⟨qf, Pf, Hf, rp, ro, hrun, hinvf, hfifo⟩ :=
          ih q1 P (H + 1) (pushed ++ [v]) hinv1
        rw [List.append_assoc, List.singleton_append] at hinvf hfifo
        refine ⟨qf, Pf, Hf, v :: rp, ro, ?_, hinvf, ?_⟩
        · show MPSCQ.runOps q (QOp.push v :: ops) = _
          unfold MPSCQ.runOps
          rw [hp]
          simp only [hrun, if_pos rfl]
          simp
        · rw [hfifo, mpscContents_push pushed P H v hPH hlen, List.append_assoc,
            List.singleton_append]
    | pop =>
      by_cases hempty : P = H
      · have hp := mpsc_pop_empty hk1 hk63 hc hinv hempty
        obtain ⟨qf, Pf, Hf, rp, ro, hrun, hinvf, hfifo⟩ := ih q P H pushed hinv
        refine ⟨qf, Pf, Hf, rp, ro, ?_, hinvf, hfifo⟩
        show MPSCQ.runOps q (QOp.pop :: ops) = _
        unfold MPSCQ.runOps
        rw [hp]
        simp only [hrun]
        simp
      · obtain ⟨q1, hp, hinv1⟩ := mpsc_pop_ok hk1 hk63 hc hinv (by omega)
        obtain ⟨qf, Pf, Hf, rp, ro, hrun, hinvf, hfifo⟩ := ih q1 (P + 1) H pushed hinv1
        refine ⟨qf, Pf, Hf, rp, pushed.getD P default :: ro, ?_, hinvf, ?_⟩
        · show MPSCQ.runOps q (QOp.pop :: ops) = _
          unfold MPSCQ.runOps
          rw [hp]
          simp only [hrun]
          simp [hp]
        · rw [List.cons_append, hfifo, mpscContents_pop pushed P H (by omega),
            List.cons_append]

theorem mpsc_size_abs {α : Type} [Inhabited α] {c k : Nat} {q : MPSCQ α} {P H : Nat}
    {pushed : List α} (hk63 : k ≤ 63) (hc : c = 2 ^ k)
    (hinv : MPSCInv c q P H pushed) : q.size = H - P := by
  obtain ⟨hqc, hqm, hqlen, hPH, hHc, hhead, htail, hplen, hslots⟩ := hinv
  have hclt : c < 2 ^ 64 := by
    rw [hc]
    exact Nat.pow_lt_pow_right (by omega) (by omega)
  unfold MPSCQ.size usub64
  rw [hhead, htail]
  have hwin := window_mod (c := 2 ^ 64) (R := P) (d := H - P) (by norm_num) (by omega)
  rw [show P + (H - P) = H from by omega] at hwin
  exact hwin

theorem mpsc_push_false_unchanged {α : Type} [Inhabited α] (q q' : MPSCQ α) (v : α)
    (h : q.push v = some (q', false)) : q' = q := by
  unfold MPSCQ.push at h
  by_cases h1 : sdiff64 (q.buffer_.getD (q.head_ &&& q.mask_) ⟨0, v⟩).sequence q.head_ = 0
  · rw [if_pos h1] at h
    simp at h
  · rw [if_neg h1] at h
    by_cases h2 : sdiff64 (q.buffer_.getD (q.head_ &&& q.mask_) ⟨0, v⟩).sequence q.head_ < 0
    · rw [if_pos h2] at h
      simp at h
      exact h.symm
    · rw [if_neg h2] at h
      exact absurd h (by simp)

/-- C8: for any sequential run on a constructed MPSC queue the run never
gets stuck, the popped values are exactly an initial segment of the
successfully pushed values (every popped value was pushed, nothing is
popped twice, FIFO), the remainder still sits in the queue so that
successful pushes = successful pops + `size()`, and a push that returns
false leaves the queue unchanged. -/
theorem mpsc_conservation {α : Type} [Inhabited α] (cap : Nat) (q0 : MPSCQ α)
    (ops : List (QOp α)) (v : α) (hnew : MPSCQ.new α cap = Except.ok q0)
    (hlt : cap < 2 ^ 64) :
    (∃ qf resPush resPop, q0.runOps ops = some (qf, resPush, resPop) ∧
      (∃ rest, resPush = resPop ++ rest ∧ rest.length = qf.size) ∧
      resPush.length = resPop.length + qf.size) ∧
    (∀ q q' : MPSCQ α, q.push v = some (q', false) → q' = q) := by
  obtain ⟨⟨k, hk1, hk63, hcapk⟩, hinv0⟩ := mpsc_new_inv hnew hlt
  obtain ⟨qf, Pf, Hf, rp, ro, hrun, hinvf, hfifo⟩ :=
    mpsc_runOps_spec hk1 hk63 hcapk ops q0 0 0 [] hinv0
  have hsize := mpsc_size_abs hk63 hcapk hinvf
  have hPfHf : Pf ≤ Hf := hinvf.2.2.2.1
  have hlenf : ([] ++ rp : List α).length = Hf := hinvf.2.2.2.2.2.2.2.1
  have hcon0 : mpscContents ([] : List α) 0 0 = [] := by
    unfold mpscContents
    simp
  rw [List.nil_append] at hfifo hlenf
  rw [hcon0, List.nil_append] at hfifo
  refine ⟨⟨qf, rp, ro, hrun, ⟨mpscContents rp Pf Hf, hfifo.symm, ?_⟩, ?_⟩,
    fun q q' => mpsc_push_false_unchanged q q' v⟩
  · show ((List.range (Hf - Pf)).map _).length = _
    rw [List.length_map, List.length_range, hsize]
  · rw [← hfifo, List.length_append]
    show _ = ro.length + qf.size
    rw [hsize]
    have : (mpscContents rp Pf Hf).length = Hf - Pf := by
      show ((List.range (Hf - Pf)).map _).length = _
      rw [List.length_map, List.length_range]
    omega

/-- Witness for `mpsc_conservation`: capacity 2, pushes of 7, 8, 9 (the
third meets a full queue) and one pop. -/
theorem mpsc_conservation_witness :
    (MPSCQ.new Nat 2 = Except.ok (⟨2, 1, [⟨0, 0⟩, ⟨1, 0⟩], 0, 0⟩ : MPSCQ Nat) ∧
      2 < 2 ^ 64) ∧
    (∃ qf resPush resPop,
      (⟨2, 1, [⟨0, 0⟩, ⟨1, 0⟩], 0, 0⟩ : MPSCQ Nat).runOps
        [QOp.push 7, QOp.push 8, QOp.push 9, QOp.pop] = some (qf, resPush, resPop) ∧
      (∃ rest, resPush = resPop ++ rest ∧ rest.length = qf.size) ∧
      resPush.length = resPop.length + qf.size) := by
  have hnew : MPSCQ.new Nat 2 = Except.ok (⟨2, 1, [⟨0, 0⟩, ⟨1, 0⟩], 0, 0⟩ : MPSCQ Nat) := by
    show (if (2 : Nat) < 2 ∨ 2 &&& (2 - 1) ≠ 0 then _ else _) = _
    norm_num
    rfl
  have h := mpsc_conservation 2 (⟨2, 1, [⟨0, 0⟩, ⟨1, 0⟩], 0, 0⟩ : MPSCQ Nat)
    [QOp.push 7, QOp.push 8, QOp.push 9, QOp.pop] 0 hnew (by norm_num)
  exact ⟨⟨hnew, by norm_num⟩, h.1⟩

end LockedIn
